import Mathlib

/-!
Verification of the trie-backed ordered map (`string_map`) and the `Indice`
layer of this repository.

The repository ships the class header `string_map.h` (declarations, complexity
annotations and the representation invariant written as comments) and the
`Indice.cpp` translation unit, but not `string_map.hpp`, the translation unit
holding the method bodies.  The definitions below therefore embed the data
model declared in the header (node with optional value, per-byte child slots,
parent back-reference, `cant_hijos`, plus the map's `cantElem` and root), and
model each method's body from the specification's algorithm descriptions.
Keys are byte sequences; the 256-slot child array of a node is embedded as the
ascending association list of its non-null slots, which carries exactly the
same information (slot `b` is non-null iff `b` is a key of the list), as the
specification itself notes when discussing sparse child maps.
-/

/-- Keys are raw byte sequences (`string` in the source); each byte is below 256. -/
abbrev Clave := List Nat

/-- Strict byte-lexicographic order on keys, the order the iterator exposes. -/
def claveLt : Clave → Clave → Prop := List.Lex (· < ·)

/-- Modelled from the spec: one trie node of `string_map` (missing from
`src`, declared in `string_map.h`): an optional value (`definicion`, present
iff some key terminates here), the cached count `cant_hijos`, the non-owning
parent back-reference `padre` (embedded as the parent's path, `none` only at
the root), and the non-null child slots `hijos` as an ascending association
list from branch byte to child node. -/
inductive Nodo (T : Type) : Type where
  | mk (definicion : Option T) (cant_hijos : Nat) (padre : Option Clave)
       (hijos : List (Nat × Nodo T))

/-- The optional value stored at a node. -/
def Nodo.definicion {T : Type} : Nodo T → Option T
  | .mk d _ _ _ => d

/-- The cached child count stored at a node. -/
def Nodo.cant_hijos {T : Type} : Nodo T → Nat
  | .mk _ c _ _ => c

/-- The parent back-reference stored at a node (as the parent's path). -/
def Nodo.padre {T : Type} : Nodo T → Option Clave
  | .mk _ _ pa _ => pa

/-- The non-null child slots of a node, as an ascending association list. -/
def Nodo.hijos {T : Type} : Nodo T → List (Nat × Nodo T)
  | .mk _ _ _ hs => hs

/-- The map: element count `cantElem` and root node `raiz`, as declared in
`string_map.h`. -/
structure string_map (T : Type) : Type where
  cantElem : Nat
  raiz : Nodo T

/-- Modelled from the spec: the empty map built by the default constructor —
zero elements and a fresh root with no value, no children, null parent. -/
def string_map.vacio (T : Type) : string_map T :=
  ⟨0, .mk none 0 none []⟩

/-- Reading child slot `b` of a children list (`hijos[b]` in the source). -/
def buscarHijo {T : Type} (b : Nat) : List (Nat × Nodo T) → Option (Nodo T)
  | [] => none
  | (b2, c) :: rest => if b = b2 then some c else buscarHijo b rest

/-- Writing child slot `b` of a children list (`hijos[b] = n`): replaces the
slot if occupied, otherwise inserts it at its ascending position. -/
def ponerHijo {T : Type} (b : Nat) (n : Nodo T) : List (Nat × Nodo T) → List (Nat × Nodo T)
  | [] => [(b, n)]
  | (b2, c) :: rest =>
    if b < b2 then (b, n) :: (b2, c) :: rest
    else if b = b2 then (b, n) :: rest
    else (b2, c) :: ponerHijo b n rest

/-- Clearing child slot `b` of a children list (`hijos[b] = NULL`). -/
def quitarHijo {T : Type} (b : Nat) (hs : List (Nat × Nodo T)) : List (Nat × Nodo T) :=
  hs.filter (fun p => p.1 != b)

/-- The walk written as the abstraction function `encontrarPalabra` in
`string_map.h`: consume one key byte per step through the child slots. -/
def encontrarPalabra {T : Type} : Clave → Option (Nodo T) → Option (Nodo T)
  | _, none => none
  | [], some n => some n
  | b :: k, some n => encontrarPalabra k (buscarHijo b n.hijos)

/-- Modelled from the spec: `string_map::count` (body missing from `src`) —
1 when the key walk reaches a node holding a value, else 0. -/
def string_map.count {T : Type} (m : string_map T) (key : Clave) : Nat :=
  match encontrarPalabra key (some m.raiz) with
  | some n => if n.definicion.isSome then 1 else 0
  | none => 0

/-- Modelled from the spec: `string_map::find` (body missing from `src`) —
the cursor as an optional dereferenced pair: `none` is `end()`, and a found
key yields the pair of the key (materialized from the walk, as the spec
describes) and the stored value. -/
def string_map.find {T : Type} (m : string_map T) (key : Clave) : Option (Clave × T) :=
  match encontrarPalabra key (some m.raiz) with
  | some n => n.definicion.map (fun v => (key, v))
  | none => none

/-- Modelled from the spec: `string_map::at` (body missing from `src`) — the
read-only access; `none` models the key-not-found failure.  It is a pure
function of the map, so it cannot mutate it. -/
def string_map.atKey {T : Type} (m : string_map T) (key : Clave) : Option T :=
  match encontrarPalabra key (some m.raiz) with
  | some n => n.definicion
  | none => none

/-- Number of defined keys, read from the cached field as in the header. -/
def string_map.size {T : Type} (m : string_map T) : Nat := m.cantElem

/-- Modelled from the spec: `empty()` is `size() == 0`. -/
def string_map.esVacio {T : Type} (m : string_map T) : Bool := m.size == 0

/-- Modelled from the spec: the recursive worker of `string_map::insert`
(body missing from `src`).  Walks the key from the node at path `pre`,
allocating missing children (their `padre` set to the allocating node's path),
overwrites or creates the value at the terminal node, reports whether the key
was new, and adds one to `cant_hijos` of every node above a newly defined key,
per clause 7 of the header's representation invariant. -/
def insertarNodo {T : Type} (pre : Clave) (k : Clave) (v : T) : Nodo T → Nodo T × Bool
  | .mk d c pa hs =>
    match k with
    | [] => (.mk (some v) c pa hs, d.isNone)
    | b :: rest =>
      match buscarHijo b hs with
      | some child =>
        let r := insertarNodo (pre ++ [b]) rest v child
        (.mk d (if r.2 then c + 1 else c) pa (ponerHijo b r.1 hs), r.2)
      | none =>
        let r := insertarNodo (pre ++ [b]) rest v (.mk none 0 (some pre) [])
        (.mk d (c + 1) pa (ponerHijo b r.1 hs), true)

/-- Modelled from the spec: `string_map::insert` (body missing from `src`) —
runs the worker from the root and bumps `cantElem` when the key was new. -/
def string_map.insert {T : Type} (m : string_map T) (kv : Clave × T) : string_map T × Bool :=
  let r := insertarNodo [] kv.1 kv.2 m.raiz
  (⟨if r.2 then m.cantElem + 1 else m.cantElem, r.1⟩, r.2)

/-- Modelled from the spec: the recursive worker of `string_map::erase`
(body missing from `src`).  Clears the value at the key's terminal node, takes
one off `cant_hijos` of every node above it, and prunes: a node with no value
and no remaining children is detached (the result `none`), repeatedly up the
chain, per the ancestor-pruning loop of the spec. -/
def borrarNodo {T : Type} : Clave → Nodo T → Option (Nodo T)
  | [], .mk _ c pa hs => if hs.isEmpty then none else some (.mk none c pa hs)
  | b :: k, .mk d c pa hs =>
    match buscarHijo b hs with
    | none => some (.mk d c pa hs)
    | some child =>
      match borrarNodo k child with
      | none =>
        let hs2 := quitarHijo b hs
        if d.isNone && hs2.isEmpty then none else some (.mk d (c - 1) pa hs2)
      | some child2 => some (.mk d (c - 1) pa (ponerHijo b child2 hs))

/-- Modelled from the spec: `string_map::erase` by key (body missing from
`src`) — a no-op returning 0 on an absent key; otherwise clears and prunes,
never deleting the root (a fully pruned trie leaves the fresh empty root),
returns 1 and decrements `cantElem`. -/
def string_map.erase {T : Type} (m : string_map T) (key : Clave) : string_map T × Nat :=
  if m.count key = 1 then
    match borrarNodo key m.raiz with
    | none => (⟨m.cantElem - 1, .mk none 0 none []⟩, 1)
    | some r => (⟨m.cantElem - 1, r⟩, 1)
  else (m, 0)

/-- Modelled from the spec: `string_map::operator[]` (body missing from
`src`) — returns the stored value, default-constructing and storing one first
when the key is absent. -/
def string_map.opIdx {T : Type} [Inhabited T] (m : string_map T) (key : Clave) :
    string_map T × T :=
  match m.atKey key with
  | some v => (m, v)
  | none => ((m.insert (key, default)).1, default)

/-- The mutating operations of the container facade, used to describe the
maps reachable from the empty one. -/
inductive Op (T : Type) : Type where
  | ins (k : Clave) (v : T)
  | del (k : Clave)
  | idx (k : Clave)

/-- Applying one facade operation to a map. -/
def aplicarOp {T : Type} [Inhabited T] (m : string_map T) : Op T → string_map T
  | .ins k v => (m.insert (k, v)).1
  | .del k => (m.erase k).1
  | .idx k => (m.opIdx k).1

/-- The map built by a sequence of operations starting from the empty map. -/
def aplicarOps {T : Type} [Inhabited T] (ops : List (Op T)) : string_map T :=
  ops.foldl aplicarOp (string_map.vacio T)

/-- A child's node is smaller than the node holding it, for the nested
termination arguments below. -/
theorem sizeOf_hijo_lt {T : Type} (d : Option T) (c : Nat) (pa : Option Clave)
    (hs : List (Nat × Nodo T)) (p : Nat × Nodo T) (h : p ∈ hs) :
    sizeOf p.2 < sizeOf (Nodo.mk d c pa hs) := by
  have h1 : sizeOf p.2 < sizeOf p := by cases p; simp
  have h2 : sizeOf p < sizeOf hs := List.sizeOf_lt_of_mem h
  have h3 : sizeOf hs < sizeOf (Nodo.mk d c pa hs) := by
    cases d <;> cases pa <;> simp
  omega

/-- Structural induction over a node and all of its descendants. -/
theorem Nodo.induccion {T : Type} {P : Nodo T → Prop}
    (h : ∀ d c pa hs, (∀ p ∈ hs, P p.2) → P (.mk d c pa hs)) : ∀ n, P n := by
  have key : ∀ k, ∀ n : Nodo T, sizeOf n < k → P n := by
    intro k
    induction k with
    | zero => exact fun n hn => absurd hn (Nat.not_lt_zero _)
    | succ k ih =>
      intro n hn
      cases n with
      | mk d c pa hs =>
        exact h d c pa hs (fun p hp => ih p.2 (by
          have := sizeOf_hijo_lt d c pa hs p hp; omega))
  exact fun n => key (sizeOf n + 1) n (Nat.lt_succ_self _)

/-- Number of values stored in a node's subtree, the node's own included. -/
def Nodo.numDefs {T : Type} : Nodo T → Nat
  | .mk d _ _ hs =>
    (if d.isSome then 1 else 0) + (hs.attach.map (fun p => p.1.2.numDefs)).sum
decreasing_by exact sizeOf_hijo_lt _ _ _ _ _ p.2

/-- Unfolding equation for `Nodo.numDefs`. -/
theorem numDefs_mk {T : Type} (d : Option T) (c : Nat) (pa : Option Clave)
    (hs : List (Nat × Nodo T)) :
    (Nodo.mk d c pa hs).numDefs
      = (if d.isSome then 1 else 0) + (hs.map (fun p => p.2.numDefs)).sum := by
  rw [Nodo.numDefs]
  exact congrArg _ (congrArg List.sum (List.attach_map_coe hs (fun p => p.2.numDefs)))

/-- The ordered key/value listing of a node's subtree, prefixed by the node's
path: the node's own pair first, then each child subtree in ascending byte
order — the traversal order `begin()`/`operator++` expose. -/
def Nodo.lista {T : Type} : Nodo T → Clave → List (Clave × T)
  | .mk d _ _ hs, pre =>
    (match d with | some v => [(pre, v)] | none => []) ++
      (hs.attach.map (fun p => p.1.2.lista (pre ++ [p.1.1]))).flatten
decreasing_by exact sizeOf_hijo_lt _ _ _ _ _ p.2

/-- Unfolding equation for `Nodo.lista`. -/
theorem lista_mk {T : Type} (d : Option T) (c : Nat) (pa : Option Clave)
    (hs : List (Nat × Nodo T)) (pre : Clave) :
    (Nodo.mk d c pa hs).lista pre
      = (match d with | some v => [(pre, v)] | none => []) ++
          (hs.map (fun p => p.2.lista (pre ++ [p.1]))).flatten := by
  rw [Nodo.lista.eq_def]
  exact congrArg _ (congrArg List.flatten (List.attach_map_coe hs
    (fun p => p.2.lista (pre ++ [p.1]))))

/-- The key/value pairs of a map in the order the iterator visits them. -/
def string_map.toList {T : Type} (m : string_map T) : List (Clave × T) :=
  m.raiz.lista []

/-- The keys of a map in iteration order (`claves()` in the source). -/
def string_map.claves {T : Type} (m : string_map T) : List Clave :=
  m.toList.map Prod.fst

/-- Modelled from the spec: map equality (`operator==`, body missing from
`src`) — two maps are equal iff they hold the same keys with equal values,
which the canonical ordered listing decides. -/
def string_map.opEq {T : Type} [DecidableEq T] (m1 m2 : string_map T) : Bool :=
  m1.toList = m2.toList

example : ((string_map.vacio Nat).insert ([1, 2], 5)).1.find [1, 2] = some ([1, 2], 5) := by
  decide

example : ((string_map.vacio Nat).insert ([1, 2], 5)).1.count [1] = 0 := by
  decide

example : (((string_map.vacio Nat).insert ([1, 2], 5)).1.erase [1, 2]).1.count [1, 2] = 0 := by
  decide

/-- The value stored at the end of a key walk, if any: the common core of
`count`, `find` and `at`. -/
def defEn {T : Type} (k : Clave) (o : Option (Nodo T)) : Option T :=
  match encontrarPalabra k o with
  | some n => n.definicion
  | none => none

theorem encontrarPalabra_none {T : Type} (k : Clave) :
    encontrarPalabra k (none : Option (Nodo T)) = none := by
  cases k <;> rfl

theorem defEn_none {T : Type} (k : Clave) : defEn k (none : Option (Nodo T)) = none := by
  unfold defEn
  rw [encontrarPalabra_none]

theorem defEn_cons {T : Type} (b : Nat) (k : Clave) (n : Nodo T) :
    defEn (b :: k) (some n) = defEn k (buscarHijo b n.hijos) := rfl

theorem defEn_nil {T : Type} (n : Nodo T) : defEn [] (some n) = n.definicion := rfl

theorem count_eq_defEn {T : Type} (m : string_map T) (k : Clave) :
    m.count k = if (defEn k (some m.raiz)).isSome then 1 else 0 := by
  unfold string_map.count defEn
  cases encontrarPalabra k (some m.raiz) <;> simp

theorem find_eq_defEn {T : Type} (m : string_map T) (k : Clave) :
    m.find k = (defEn k (some m.raiz)).map (fun v => (k, v)) := by
  unfold string_map.find defEn
  cases encontrarPalabra k (some m.raiz) <;> simp

theorem atKey_eq_defEn {T : Type} (m : string_map T) (k : Clave) :
    m.atKey k = defEn k (some m.raiz) := by
  unfold string_map.atKey defEn
  cases encontrarPalabra k (some m.raiz) <;> rfl

theorem buscarHijo_ponerHijo_mismo {T : Type} (b : Nat) (n : Nodo T)
    (hs : List (Nat × Nodo T)) : buscarHijo b (ponerHijo b n hs) = some n := by
  induction hs with
  | nil => simp [ponerHijo, buscarHijo]
  | cons p rest ih =>
    obtain ⟨b2, c⟩ := p
    by_cases h1 : b < b2
    · simp [ponerHijo, h1, buscarHijo]
    · by_cases h2 : b = b2
      · simp [ponerHijo, h1, h2, buscarHijo]
      · simp [ponerHijo, h1, h2, buscarHijo, ih]

theorem buscarHijo_ponerHijo_otro {T : Type} {b b2 : Nat} (hne : b2 ≠ b) (n : Nodo T)
    (hs : List (Nat × Nodo T)) : buscarHijo b2 (ponerHijo b n hs) = buscarHijo b2 hs := by
  have hne2 : ¬ b2 = b := hne
  induction hs with
  | nil => simp [ponerHijo, buscarHijo, hne2]
  | cons p rest ih =>
    obtain ⟨b3, c⟩ := p
    by_cases h1 : b < b3
    · simp [ponerHijo, h1, buscarHijo, hne2]
    · by_cases h2 : b = b3
      · subst h2
        simp [ponerHijo, h1, buscarHijo, hne2]
      · simp [ponerHijo, h1, h2, buscarHijo, ih]

theorem buscarHijo_quitarHijo_mismo {T : Type} (b : Nat) (hs : List (Nat × Nodo T)) :
    buscarHijo b (quitarHijo b hs) = none := by
  induction hs with
  | nil => simp [quitarHijo, buscarHijo]
  | cons p rest ih =>
    obtain ⟨b2, c⟩ := p
    simp only [quitarHijo, List.filter_cons] at ih ⊢
    by_cases h : b2 = b
    · simp [h, ih]
    · have h2 : ¬ b = b2 := fun hx => h hx.symm
      simp [h, buscarHijo, h2, ih]

theorem buscarHijo_quitarHijo_otro {T : Type} {b b2 : Nat} (hne : b2 ≠ b)
    (hs : List (Nat × Nodo T)) : buscarHijo b2 (quitarHijo b hs) = buscarHijo b2 hs := by
  induction hs with
  | nil => simp [quitarHijo, buscarHijo]
  | cons p rest ih =>
    obtain ⟨b3, c⟩ := p
    simp only [quitarHijo, List.filter_cons] at ih ⊢
    by_cases h : b3 = b
    · have h2 : ¬ b2 = b3 := fun hx => hne (hx.trans h)
      have h3 : ¬ b2 = b := hne
      simp [h, buscarHijo, h2, h3, ih]
    · by_cases h2 : b2 = b3
      · simp [h, buscarHijo, h2]
      · simp [h, buscarHijo, h2, ih]

theorem defEn_insertar_mismo {T : Type} :
    ∀ (k pre : Clave) (v : T) (n : Nodo T),
      defEn k (some (insertarNodo pre k v n).1) = some v := by
  intro k
  induction k with
  | nil =>
    intro pre v n
    cases n
    simp [insertarNodo, defEn_nil, Nodo.definicion]
  | cons b rest ih =>
    intro pre v n
    cases n with
    | mk d c pa hs =>
      rw [insertarNodo]
      cases hbs : buscarHijo b hs with
      | some child =>
        rw [defEn_cons]
        simp only [Nodo.hijos]
        rw [buscarHijo_ponerHijo_mismo]
        exact ih _ v child
      | none =>
        rw [defEn_cons]
        simp only [Nodo.hijos]
        rw [buscarHijo_ponerHijo_mismo]
        exact ih _ v _

theorem defEn_fresh {T : Type} (k : Clave) (c : Nat) (pa : Option Clave) :
    defEn k (some (Nodo.mk (T := T) none c pa [])) = none := by
  cases k with
  | nil => rfl
  | cons b rest =>
    rw [defEn_cons]
    simp only [Nodo.hijos, buscarHijo]
    exact defEn_none rest

theorem defEn_insertar_otro {T : Type} :
    ∀ (k2 k pre : Clave) (v : T) (n : Nodo T), k2 ≠ k →
      defEn k2 (some (insertarNodo pre k v n).1) = defEn k2 (some n) := by
  intro k2
  induction k2 with
  | nil =>
    intro k pre v n hne
    cases n with
    | mk d c pa hs =>
      cases k with
      | nil => exact absurd rfl hne
      | cons b rest =>
        rw [insertarNodo]
        cases buscarHijo b hs <;> simp [defEn_nil, Nodo.definicion]
  | cons b2 rest2 ih =>
    intro k pre v n hne
    cases n with
    | mk d c pa hs =>
      cases k with
      | nil =>
        rw [insertarNodo, defEn_cons, defEn_cons]
        simp only [Nodo.hijos]
      | cons b rest =>
        by_cases hb : b2 = b
        · subst hb
          have hner : rest2 ≠ rest := fun h => hne (by rw [h])
          rw [insertarNodo]
          cases hbs : buscarHijo b2 hs with
          | some child =>
            rw [defEn_cons]
            simp only [Nodo.hijos]
            rw [buscarHijo_ponerHijo_mismo, defEn_cons]
            simp only [Nodo.hijos]
            rw [hbs]
            exact ih rest (pre ++ [b2]) v child hner
          | none =>
            rw [defEn_cons]
            simp only [Nodo.hijos]
            rw [buscarHijo_ponerHijo_mismo, defEn_cons]
            simp only [Nodo.hijos]
            rw [hbs, ih rest (pre ++ [b2]) v _ hner, defEn_fresh, defEn_none]
        · rw [insertarNodo]
          cases hbs : buscarHijo b hs with
          | some child =>
            rw [defEn_cons, defEn_cons]
            simp only [Nodo.hijos]
            rw [buscarHijo_ponerHijo_otro hb]
          | none =>
            rw [defEn_cons, defEn_cons]
            simp only [Nodo.hijos]
            rw [buscarHijo_ponerHijo_otro hb]

theorem defEn_borrar_mismo {T : Type} :
    ∀ (k : Clave) (n : Nodo T), defEn k (borrarNodo k n) = none := by
  intro k
  induction k with
  | nil =>
    intro n
    cases n with
    | mk d c pa hs =>
      by_cases h : hs.isEmpty = true
      · simp only [borrarNodo, if_pos h]
        exact defEn_none []
      · simp only [borrarNodo, if_neg h]
        simp [defEn_nil, Nodo.definicion]
  | cons b rest ih =>
    intro n
    cases n with
    | mk d c pa hs =>
      cases hbs : buscarHijo b hs with
      | none =>
        simp only [borrarNodo, hbs]
        rw [defEn_cons]
        simp only [Nodo.hijos]
        rw [hbs, defEn_none]
      | some child =>
        cases hbr : borrarNodo rest child with
        | none =>
          simp only [borrarNodo, hbs, hbr]
          by_cases h : (d.isNone && (quitarHijo b hs).isEmpty) = true
          · rw [if_pos h]
            exact defEn_none _
          · rw [if_neg h, defEn_cons]
            simp only [Nodo.hijos]
            rw [buscarHijo_quitarHijo_mismo, defEn_none]
        | some child2 =>
          simp only [borrarNodo, hbs, hbr]
          rw [defEn_cons]
          simp only [Nodo.hijos]
          rw [buscarHijo_ponerHijo_mismo]
          have hx := ih child
          rw [hbr] at hx
          exact hx

theorem defEn_borrar_otro {T : Type} :
    ∀ (k2 k : Clave) (n : Nodo T), k2 ≠ k →
      defEn k2 (borrarNodo k n) = defEn k2 (some n) := by
  intro k2
  induction k2 with
  | nil =>
    intro k n hne
    cases n with
    | mk d c pa hs =>
      cases k with
      | nil => exact absurd rfl hne
      | cons b rest =>
        cases hbs : buscarHijo b hs with
        | none => simp only [borrarNodo, hbs]
        | some child =>
          cases hbr : borrarNodo rest child with
          | none =>
            simp only [borrarNodo, hbs, hbr]
            by_cases h : (d.isNone && (quitarHijo b hs).isEmpty) = true
            · rw [Bool.and_eq_true] at h
              have hd : d = none := Option.isNone_iff_eq_none.mp h.1
              rw [if_pos (by rw [Bool.and_eq_true]; exact h)]
              rw [defEn_none, defEn_nil, hd]
              rfl
            · rw [if_neg h, defEn_nil, defEn_nil]
              rfl
          | some child2 =>
            simp only [borrarNodo, hbs, hbr]
            rw [defEn_nil, defEn_nil]
            rfl
  | cons b2 rest2 ih =>
    intro k n hne
    cases n with
    | mk d c pa hs =>
      cases k with
      | nil =>
        by_cases h : hs.isEmpty = true
        · have hemp : hs = [] := List.isEmpty_iff.mp h
          simp only [borrarNodo, if_pos h]
          rw [defEn_none, defEn_cons]
          simp only [Nodo.hijos, hemp, buscarHijo]
          rw [defEn_none]
        · simp only [borrarNodo, if_neg h]
          rw [defEn_cons, defEn_cons]
          simp only [Nodo.hijos]
      | cons b rest =>
        by_cases hb : b2 = b
        · subst hb
          have hner : rest2 ≠ rest := fun h => hne (by rw [h])
          cases hbs : buscarHijo b2 hs with
          | none => simp only [borrarNodo, hbs]
          | some child =>
            cases hbr : borrarNodo rest child with
            | none =>
              have hval : defEn rest2 (some child) = none := by
                have hx := ih rest child hner
                rw [hbr, defEn_none] at hx
                exact hx.symm
              simp only [borrarNodo, hbs, hbr]
              by_cases h : (d.isNone && (quitarHijo b2 hs).isEmpty) = true
              · rw [if_pos h, defEn_none, defEn_cons]
                simp only [Nodo.hijos]
                rw [hbs, hval]
              · rw [if_neg h, defEn_cons, defEn_cons]
                simp only [Nodo.hijos]
                rw [buscarHijo_quitarHijo_mismo, defEn_none, hbs, hval]
            | some child2 =>
              simp only [borrarNodo, hbs, hbr]
              rw [defEn_cons, defEn_cons]
              simp only [Nodo.hijos]
              rw [buscarHijo_ponerHijo_mismo, hbs]
              have hx := ih rest child hner
              rw [hbr] at hx
              exact hx
        · cases hbs : buscarHijo b hs with
          | none => simp only [borrarNodo, hbs]
          | some child =>
            cases hbr : borrarNodo rest child with
            | none =>
              simp only [borrarNodo, hbs, hbr]
              by_cases h : (d.isNone && (quitarHijo b hs).isEmpty) = true
              · rw [Bool.and_eq_true] at h
                have hnil : quitarHijo b hs = [] := List.isEmpty_iff.mp h.2
                rw [if_pos (by rw [Bool.and_eq_true]; exact h)]
                rw [defEn_none, defEn_cons]
                simp only [Nodo.hijos]
                have hnone : buscarHijo b2 hs = none := by
                  rw [← buscarHijo_quitarHijo_otro hb hs, hnil]
                  rfl
                rw [hnone, defEn_none]
              · rw [if_neg h, defEn_cons, defEn_cons]
                simp only [Nodo.hijos]
                rw [buscarHijo_quitarHijo_otro hb]
            | some child2 =>
              simp only [borrarNodo, hbs, hbr]
              rw [defEn_cons, defEn_cons]
              simp only [Nodo.hijos]
              rw [buscarHijo_ponerHijo_otro hb]

/-- C1: for every key `k` and value `v`, after `insert(k, v)` on any map,
`find(k)` yields a cursor distinct from `end()` (here: `some` rather than the
`none` that models `end()`) that dereferences to the pair `(k, v)`, and
`count(k) == 1`. -/
theorem insertar_encontrar_cuenta {T : Type} (m : string_map T) (k : Clave) (v : T) :
    (m.insert (k, v)).1.find k = some (k, v) ∧ (m.insert (k, v)).1.count k = 1 := by
  have hd : defEn k (some ((m.insert (k, v)).1.raiz)) = some v := by
    show defEn k (some (insertarNodo [] k v m.raiz).1) = some v
    exact defEn_insertar_mismo k [] v m.raiz
  constructor
  · rw [find_eq_defEn, hd]
    rfl
  · rw [count_eq_defEn, hd]
    rfl

/-- Invariant: at every node the child slots are strictly ascending by byte
(the association-list rendering of the header's indexed 256-slot array). -/
inductive Ordenado {T : Type} : Nodo T → Prop where
  | mk : ∀ (d : Option T) (c : Nat) (pa : Option Clave) (hs : List (Nat × Nodo T)),
      (hs.map Prod.fst).Pairwise (· < ·) →
      (∀ p ∈ hs, Ordenado p.2) → Ordenado (.mk d c pa hs)

theorem Ordenado.pares {T : Type} {d : Option T} {c : Nat} {pa : Option Clave}
    {hs : List (Nat × Nodo T)} (h : Ordenado (Nodo.mk d c pa hs)) :
    (hs.map Prod.fst).Pairwise (· < ·) := by
  cases h
  assumption

theorem Ordenado.hijosOrd {T : Type} {d : Option T} {c : Nat} {pa : Option Clave}
    {hs : List (Nat × Nodo T)} (h : Ordenado (Nodo.mk d c pa hs)) :
    ∀ p ∈ hs, Ordenado p.2 := by
  cases h
  assumption

theorem buscarHijo_mem {T : Type} {b : Nat} {c : Nodo T} :
    ∀ {hs : List (Nat × Nodo T)}, buscarHijo b hs = some c → (b, c) ∈ hs := by
  intro hs
  induction hs with
  | nil => intro h; exact absurd h (by simp [buscarHijo])
  | cons p rest ih =>
    obtain ⟨b2, c2⟩ := p
    intro h
    rw [buscarHijo] at h
    by_cases hb : b = b2
    · rw [if_pos hb] at h
      cases h
      subst hb
      exact List.mem_cons_self _ _
    · rw [if_neg hb] at h
      exact List.mem_cons_of_mem _ (ih h)

theorem buscarHijo_none_iff {T : Type} {b : Nat} :
    ∀ {hs : List (Nat × Nodo T)}, buscarHijo b hs = none ↔ ∀ p ∈ hs, p.1 ≠ b := by
  intro hs
  induction hs with
  | nil => simp [buscarHijo]
  | cons p rest ih =>
    obtain ⟨b2, c2⟩ := p
    rw [buscarHijo]
    by_cases hb : b = b2
    · subst hb
      simp
    · rw [if_neg hb]
      rw [ih]
      constructor
      · intro h q hq
        cases hq with
        | head => exact fun hx => hb hx.symm
        | tail _ hq2 => exact h q hq2
      · intro h q hq
        exact h q (List.mem_cons_of_mem _ hq)

theorem mem_ponerHijo {T : Type} {b : Nat} {n : Nodo T} :
    ∀ {hs : List (Nat × Nodo T)} {p : Nat × Nodo T},
      p ∈ ponerHijo b n hs → p = (b, n) ∨ p ∈ hs := by
  intro hs
  induction hs with
  | nil =>
    intro p h
    rw [ponerHijo] at h
    cases h with
    | head => exact Or.inl rfl
    | tail _ h2 => exact absurd h2 (List.not_mem_nil _)
  | cons q rest ih =>
    obtain ⟨b2, c2⟩ := q
    intro p h
    rw [ponerHijo] at h
    by_cases h1 : b < b2
    · rw [if_pos h1] at h
      cases h with
      | head => exact Or.inl rfl
      | tail _ h2 => exact Or.inr h2
    · rw [if_neg h1] at h
      by_cases h2 : b = b2
      · rw [if_pos h2] at h
        cases h with
        | head => exact Or.inl rfl
        | tail _ h3 => exact Or.inr (List.mem_cons_of_mem _ h3)
      · rw [if_neg h2] at h
        cases h with
        | head => exact Or.inr (List.mem_cons_self _ _)
        | tail _ h3 =>
          cases ih h3 with
          | inl hx => exact Or.inl hx
          | inr hx => exact Or.inr (List.mem_cons_of_mem _ hx)

theorem keys_ponerHijo {T : Type} (b : Nat) (n : Nodo T) :
    ∀ (hs : List (Nat × Nodo T)), (hs.map Prod.fst).Pairwise (· < ·) →
      ((ponerHijo b n hs).map Prod.fst).Pairwise (· < ·) := by
  intro hs
  induction hs with
  | nil =>
    intro _
    simp [ponerHijo]
  | cons q rest ih =>
    obtain ⟨b2, c2⟩ := q
    intro h
    rw [List.map_cons, List.pairwise_cons] at h
    obtain ⟨hb2, hrest⟩ := h
    rw [ponerHijo]
    by_cases h1 : b < b2
    · rw [if_pos h1]
      rw [List.map_cons, List.map_cons, List.pairwise_cons]
      refine ⟨?_, ?_⟩
      · intro x hx
        rw [List.mem_cons] at hx
        cases hx with
        | inl he => exact he ▸ h1
        | inr he => exact Nat.lt_trans h1 (hb2 x he)
      · rw [List.pairwise_cons]
        exact ⟨hb2, hrest⟩
    · rw [if_neg h1]
      by_cases h2 : b = b2
      · rw [if_pos h2]
        rw [List.map_cons, List.pairwise_cons]
        exact ⟨fun x hx => h2 ▸ hb2 x hx, hrest⟩
      · rw [if_neg h2]
        rw [List.map_cons, List.pairwise_cons]
        refine ⟨?_, ih hrest⟩
        intro x hx
        rw [List.mem_map] at hx
        obtain ⟨p, hp, hpx⟩ := hx
        cases mem_ponerHijo hp with
        | inl he =>
          have hxb : x = b := by rw [← hpx, he]
          have : b2 < b := by omega
          exact hxb ▸ this
        | inr he =>
          exact hb2 x (hpx ▸ List.mem_map_of_mem Prod.fst he)

theorem keys_quitarHijo {T : Type} (b : Nat) (hs : List (Nat × Nodo T))
    (h : (hs.map Prod.fst).Pairwise (· < ·)) :
    ((quitarHijo b hs).map Prod.fst).Pairwise (· < ·) :=
  List.Pairwise.sublist ((List.filter_sublist hs).map Prod.fst) h

theorem mem_quitarHijo {T : Type} {b : Nat} {hs : List (Nat × Nodo T)}
    {p : Nat × Nodo T} (h : p ∈ quitarHijo b hs) : p ∈ hs :=
  List.mem_of_mem_filter h

theorem Ordenado_insertar {T : Type} (v : T) :
    ∀ (k pre : Clave) (n : Nodo T), Ordenado n → Ordenado (insertarNodo pre k v n).1 := by
  intro k
  induction k with
  | nil =>
    intro pre n h
    cases n with
    | mk d c pa hs =>
      rw [insertarNodo]
      exact Ordenado.mk _ _ _ _ h.pares h.hijosOrd
  | cons b rest ih =>
    intro pre n h
    cases n with
    | mk d c pa hs =>
      cases hbs : buscarHijo b hs with
      | some child =>
        simp only [insertarNodo, hbs]
        refine Ordenado.mk _ _ _ _ (keys_ponerHijo b _ hs h.pares) ?_
        intro p hp
        cases mem_ponerHijo hp with
        | inl he =>
          rw [he]
          exact ih (pre ++ [b]) child (h.hijosOrd _ (buscarHijo_mem hbs))
        | inr he => exact h.hijosOrd p he
      | none =>
        simp only [insertarNodo, hbs]
        refine Ordenado.mk _ _ _ _ (keys_ponerHijo b _ hs h.pares) ?_
        intro p hp
        cases mem_ponerHijo hp with
        | inl he =>
          rw [he]
          exact ih (pre ++ [b]) _ (Ordenado.mk _ _ _ _ (by simp) (by simp))
        | inr he => exact h.hijosOrd p he

theorem Ordenado_borrar {T : Type} :
    ∀ (k : Clave) (n n2 : Nodo T), Ordenado n → borrarNodo k n = some n2 → Ordenado n2 := by
  intro k
  induction k with
  | nil =>
    intro n n2 h hb
    cases n with
    | mk d c pa hs =>
      by_cases hemp : hs.isEmpty = true
      · simp only [borrarNodo, if_pos hemp] at hb
        exact Option.noConfusion hb
      · simp only [borrarNodo, if_neg hemp] at hb
        cases hb
        exact Ordenado.mk _ _ _ _ h.pares h.hijosOrd
  | cons b rest ih =>
    intro n n2 h hb
    cases n with
    | mk d c pa hs =>
      cases hbs : buscarHijo b hs with
      | none =>
        simp only [borrarNodo, hbs] at hb
        cases hb
        exact Ordenado.mk _ _ _ _ h.pares h.hijosOrd
      | some child =>
        cases hbr : borrarNodo rest child with
        | none =>
          simp only [borrarNodo, hbs, hbr] at hb
          by_cases hg : (d.isNone && (quitarHijo b hs).isEmpty) = true
          · rw [if_pos hg] at hb
            cases hb
          · rw [if_neg hg] at hb
            cases hb
            refine Ordenado.mk _ _ _ _ (keys_quitarHijo b hs h.pares) ?_
            intro p hp
            exact h.hijosOrd p (mem_quitarHijo hp)
        | some child2 =>
          simp only [borrarNodo, hbs, hbr] at hb
          cases hb
          refine Ordenado.mk _ _ _ _ (keys_ponerHijo b _ hs h.pares) ?_
          intro p hp
          cases mem_ponerHijo hp with
          | inl he =>
            rw [he]
            exact ih child child2 (h.hijosOrd _ (buscarHijo_mem hbs)) hbr
          | inr he => exact h.hijosOrd p he

theorem insertar_nuevo_iff {T : Type} (v : T) :
    ∀ (k pre : Clave) (n : Nodo T),
      (insertarNodo pre k v n).2 = true ↔ defEn k (some n) = none := by
  intro k
  induction k with
  | nil =>
    intro pre n
    cases n with
    | mk d c pa hs =>
      rw [insertarNodo, defEn_nil]
      simp [Nodo.definicion, Option.isNone_iff_eq_none]
  | cons b rest ih =>
    intro pre n
    cases n with
    | mk d c pa hs =>
      cases hbs : buscarHijo b hs with
      | some child =>
        simp only [insertarNodo, hbs]
        rw [defEn_cons]
        simp only [Nodo.hijos]
        rw [hbs]
        exact ih (pre ++ [b]) child
      | none =>
        simp only [insertarNodo, hbs]
        rw [defEn_cons]
        simp only [Nodo.hijos]
        rw [hbs, defEn_none]
        simp

theorem quitarHijo_no_esta {T : Type} {b : Nat} {hs : List (Nat × Nodo T)}
    (h : buscarHijo b hs = none) : quitarHijo b hs = hs := by
  rw [buscarHijo_none_iff] at h
  unfold quitarHijo
  rw [List.filter_eq_self]
  intro p hp
  exact bne_iff_ne.mpr (h p hp)

theorem sum_ponerHijo_none {T : Type} (g : Nodo T → Nat) (b : Nat) (n : Nodo T) :
    ∀ (hs : List (Nat × Nodo T)), buscarHijo b hs = none →
      ((ponerHijo b n hs).map (fun p => g p.2)).sum = (hs.map (fun p => g p.2)).sum + g n := by
  intro hs
  induction hs with
  | nil =>
    intro _
    simp [ponerHijo]
  | cons q rest ih =>
    obtain ⟨b2, c2⟩ := q
    intro h
    rw [buscarHijo] at h
    by_cases hb : b = b2
    · rw [if_pos hb] at h
      exact Option.noConfusion h
    · rw [if_neg hb] at h
      rw [ponerHijo]
      by_cases h1 : b < b2
      · rw [if_pos h1]
        simp only [List.map_cons, List.sum_cons]
        omega
      · rw [if_neg h1, if_neg hb]
        simp only [List.map_cons, List.sum_cons]
        rw [ih h]
        omega

theorem sum_ponerHijo_some {T : Type} (g : Nodo T → Nat) (b : Nat) (n c : Nodo T) :
    ∀ (hs : List (Nat × Nodo T)), (hs.map Prod.fst).Pairwise (· < ·) →
      buscarHijo b hs = some c →
      ((ponerHijo b n hs).map (fun p => g p.2)).sum + g c
        = (hs.map (fun p => g p.2)).sum + g n := by
  intro hs
  induction hs with
  | nil =>
    intro _ h
    exact Option.noConfusion h
  | cons q rest ih =>
    obtain ⟨b2, c2⟩ := q
    intro hp h
    rw [List.map_cons, List.pairwise_cons] at hp
    obtain ⟨hb2, hrest⟩ := hp
    rw [buscarHijo] at h
    by_cases hb : b = b2
    · rw [if_pos hb] at h
      cases h
      subst hb
      rw [ponerHijo]
      rw [if_neg (Nat.lt_irrefl b), if_pos rfl]
      simp only [List.map_cons, List.sum_cons]
      omega
    · rw [if_neg hb] at h
      have hbmem : b ∈ rest.map Prod.fst := List.mem_map_of_mem Prod.fst (buscarHijo_mem h)
      have hlt : b2 < b := hb2 b hbmem
      rw [ponerHijo]
      rw [if_neg (by omega), if_neg (fun hx : b = b2 => hb hx)]
      simp only [List.map_cons, List.sum_cons]
      have := ih hrest h
      omega

theorem sum_quitarHijo_some {T : Type} (g : Nodo T → Nat) (b : Nat) (c : Nodo T) :
    ∀ (hs : List (Nat × Nodo T)), (hs.map Prod.fst).Pairwise (· < ·) →
      buscarHijo b hs = some c →
      ((quitarHijo b hs).map (fun p => g p.2)).sum + g c = (hs.map (fun p => g p.2)).sum := by
  intro hs
  induction hs with
  | nil =>
    intro _ h
    exact Option.noConfusion h
  | cons q rest ih =>
    obtain ⟨b2, c2⟩ := q
    intro hp h
    rw [List.map_cons, List.pairwise_cons] at hp
    obtain ⟨hb2, hrest⟩ := hp
    rw [buscarHijo] at h
    simp only [quitarHijo, List.filter_cons]
    by_cases hb : b = b2
    · rw [if_pos hb] at h
      cases h
      subst hb
      have hobs : (b != b) = false := by simp
      rw [hobs]
      simp only [Bool.false_eq_true, if_false]
      have hnone : buscarHijo b rest = none := by
        rw [buscarHijo_none_iff]
        intro p hp2
        have := hb2 p.1 (List.mem_map_of_mem Prod.fst hp2)
        omega
      have hq : quitarHijo b rest = rest := quitarHijo_no_esta hnone
      unfold quitarHijo at hq
      rw [hq]
      simp only [List.map_cons, List.sum_cons]
      omega
    · have hobs : (b2 != b) = true := bne_iff_ne.mpr (fun hx => hb hx.symm)
      rw [hobs]
      rw [if_neg hb] at h
      simp only [if_true, List.map_cons, List.sum_cons]
      have := ih hrest h
      unfold quitarHijo at this
      omega

theorem numDefs_insertar {T : Type} (v : T) :
    ∀ (k pre : Clave) (n : Nodo T), Ordenado n →
      (insertarNodo pre k v n).1.numDefs
        = n.numDefs + (if (insertarNodo pre k v n).2 then 1 else 0) := by
  intro k
  induction k with
  | nil =>
    intro pre n _
    cases n with
    | mk d c pa hs =>
      rw [insertarNodo]
      simp only [numDefs_mk]
      cases d with
      | none =>
        simp [Nodo.definicion]
        omega
      | some v => simp [Nodo.definicion]
  | cons b rest ih =>
    intro pre n hord
    cases n with
    | mk d c pa hs =>
      cases hbs : buscarHijo b hs with
      | some child =>
        simp only [insertarNodo, hbs]
        rw [numDefs_mk, numDefs_mk]
        have hsum := sum_ponerHijo_some Nodo.numDefs b
          (insertarNodo (pre ++ [b]) rest v child).1 child hs hord.pares hbs
        have hih := ih (pre ++ [b]) child (hord.hijosOrd _ (buscarHijo_mem hbs))
        cases hni : (insertarNodo (pre ++ [b]) rest v child).2 with
        | true =>
          rw [hni] at hih
          simp only [if_true] at hih ⊢
          omega
        | false =>
          rw [hni] at hih
          simp only [Bool.false_eq_true, if_false] at hih ⊢
          omega
      | none =>
        simp only [insertarNodo, hbs]
        rw [numDefs_mk, numDefs_mk]
        have hsum := sum_ponerHijo_none Nodo.numDefs b
          (insertarNodo (pre ++ [b]) rest v (Nodo.mk none 0 (some pre) [])).1 hs hbs
        have hih := ih (pre ++ [b]) (Nodo.mk none 0 (some pre) [])
          (Ordenado.mk _ _ _ _ (by simp) (by simp))
        have hnuevo : (insertarNodo (pre ++ [b]) rest v (Nodo.mk none 0 (some pre) [])).2 = true := by
          rw [insertar_nuevo_iff]
          exact defEn_fresh rest 0 (some pre)
        rw [hnuevo] at hih
        simp only [if_true] at hih ⊢
        rw [numDefs_mk] at hih
        simp at hih
        omega

/-- Number of values in an optional subtree (0 for a pruned-away child). -/
def numDefsOpc {T : Type} : Option (Nodo T) → Nat
  | none => 0
  | some n => n.numDefs

theorem numDefs_borrar {T : Type} :
    ∀ (k : Clave) (n : Nodo T), Ordenado n → (defEn k (some n)).isSome →
      numDefsOpc (borrarNodo k n) + 1 = n.numDefs := by
  intro k
  induction k with
  | nil =>
    intro n _ hdef
    cases n with
    | mk d c pa hs =>
      rw [defEn_nil] at hdef
      simp only [Nodo.definicion] at hdef
      by_cases hemp : hs.isEmpty = true
      · have : hs = [] := List.isEmpty_iff.mp hemp
        subst this
        simp only [borrarNodo, if_pos hemp, numDefsOpc, numDefs_mk]
        cases d with
        | none => simp at hdef
        | some v => simp
      · simp only [borrarNodo, if_neg hemp, numDefsOpc, numDefs_mk]
        cases d with
        | none => simp at hdef
        | some v =>
          simp [Nodo.definicion]
          omega
  | cons b rest ih =>
    intro n hord hdef
    cases n with
    | mk d c pa hs =>
      rw [defEn_cons] at hdef
      simp only [Nodo.hijos] at hdef
      cases hbs : buscarHijo b hs with
      | none =>
        rw [hbs, defEn_none] at hdef
        simp at hdef
      | some child =>
        rw [hbs] at hdef
        have hordc : Ordenado child := hord.hijosOrd _ (buscarHijo_mem hbs)
        have hih := ih child hordc hdef
        cases hbr : borrarNodo rest child with
        | none =>
          rw [hbr] at hih
          simp only [numDefsOpc] at hih
          have hchild1 : child.numDefs = 1 := by omega
          have hsumq := sum_quitarHijo_some Nodo.numDefs b child hs hord.pares hbs
          by_cases hg : (d.isNone && (quitarHijo b hs).isEmpty) = true
          · simp only [borrarNodo, hbs, hbr, if_pos hg, numDefsOpc, numDefs_mk]
            rw [Bool.and_eq_true] at hg
            have hd : d = none := Option.isNone_iff_eq_none.mp hg.1
            have hq : quitarHijo b hs = [] := List.isEmpty_iff.mp hg.2
            rw [hq] at hsumq
            simp at hsumq
            rw [hd]
            simp
            omega
          · simp only [borrarNodo, hbs, hbr, if_neg hg, numDefsOpc, numDefs_mk]
            omega
        | some child2 =>
          rw [hbr] at hih
          simp only [numDefsOpc] at hih
          have hsump := sum_ponerHijo_some Nodo.numDefs b child2 child hs hord.pares hbs
          simp only [borrarNodo, hbs, hbr, numDefsOpc, numDefs_mk]
          omega

/-- Invariant 2 of the spec: no dead branches — every non-root node (i.e.
every node sitting in some parent's child slot) holds a value or has at least
one non-null child, recursively down the trie. -/
inductive SinMuertos {T : Type} : Nodo T → Prop where
  | mk : ∀ (d : Option T) (c : Nat) (pa : Option Clave) (hs : List (Nat × Nodo T)),
      (∀ p ∈ hs, p.2.definicion.isSome = true ∨ p.2.hijos ≠ []) →
      (∀ p ∈ hs, SinMuertos p.2) → SinMuertos (.mk d c pa hs)

theorem SinMuertos.vivos {T : Type} {d : Option T} {c : Nat} {pa : Option Clave}
    {hs : List (Nat × Nodo T)} (h : SinMuertos (Nodo.mk d c pa hs)) :
    ∀ p ∈ hs, p.2.definicion.isSome = true ∨ p.2.hijos ≠ [] := by
  cases h
  assumption

theorem SinMuertos.hijosSM {T : Type} {d : Option T} {c : Nat} {pa : Option Clave}
    {hs : List (Nat × Nodo T)} (h : SinMuertos (Nodo.mk d c pa hs)) :
    ∀ p ∈ hs, SinMuertos p.2 := by
  cases h
  assumption

theorem ponerHijo_ne_nil {T : Type} (b : Nat) (n : Nodo T) :
    ∀ (hs : List (Nat × Nodo T)), ponerHijo b n hs ≠ [] := by
  intro hs
  cases hs with
  | nil => simp [ponerHijo]
  | cons q rest =>
    obtain ⟨b2, c2⟩ := q
    rw [ponerHijo]
    by_cases h1 : b < b2
    · simp [if_pos h1]
    · rw [if_neg h1]
      by_cases h2 : b = b2
      · simp [if_pos h2]
      · simp [if_neg h2]

theorem insertar_vivo {T : Type} (v : T) (k pre : Clave) (n : Nodo T) :
    (insertarNodo pre k v n).1.definicion.isSome = true
      ∨ (insertarNodo pre k v n).1.hijos ≠ [] := by
  cases n with
  | mk d c pa hs =>
    cases k with
    | nil =>
      rw [insertarNodo]
      left
      rfl
    | cons b rest =>
      cases hbs : buscarHijo b hs with
      | some child =>
        simp only [insertarNodo, hbs]
        right
        simp only [Nodo.hijos]
        exact ponerHijo_ne_nil b _ hs
      | none =>
        simp only [insertarNodo, hbs]
        right
        simp only [Nodo.hijos]
        exact ponerHijo_ne_nil b _ hs

theorem SinMuertos_insertar {T : Type} (v : T) :
    ∀ (k pre : Clave) (n : Nodo T), SinMuertos n → SinMuertos (insertarNodo pre k v n).1 := by
  intro k
  induction k with
  | nil =>
    intro pre n h
    cases n with
    | mk d c pa hs =>
      rw [insertarNodo]
      exact SinMuertos.mk _ _ _ _ h.vivos h.hijosSM
  | cons b rest ih =>
    intro pre n h
    cases n with
    | mk d c pa hs =>
      cases hbs : buscarHijo b hs with
      | some child =>
        simp only [insertarNodo, hbs]
        refine SinMuertos.mk _ _ _ _ ?_ ?_
        · intro p hp
          cases mem_ponerHijo hp with
          | inl he => exact he ▸ insertar_vivo v rest (pre ++ [b]) child
          | inr he => exact h.vivos p he
        · intro p hp
          cases mem_ponerHijo hp with
          | inl he =>
            rw [he]
            exact ih (pre ++ [b]) child (h.hijosSM _ (buscarHijo_mem hbs))
          | inr he => exact h.hijosSM p he
      | none =>
        simp only [insertarNodo, hbs]
        refine SinMuertos.mk _ _ _ _ ?_ ?_
        · intro p hp
          cases mem_ponerHijo hp with
          | inl he => exact he ▸ insertar_vivo v rest (pre ++ [b]) _
          | inr he => exact h.vivos p he
        · intro p hp
          cases mem_ponerHijo hp with
          | inl he =>
            rw [he]
            exact ih (pre ++ [b]) _ (SinMuertos.mk _ _ _ _ (by simp) (by simp))
          | inr he => exact h.hijosSM p he

theorem SinMuertos_borrar {T : Type} :
    ∀ (k : Clave) (n n2 : Nodo T), SinMuertos n → borrarNodo k n = some n2 →
      SinMuertos n2 ∧ ((n.definicion.isSome = true ∨ n.hijos ≠ []) →
        (n2.definicion.isSome = true ∨ n2.hijos ≠ [])) := by
  intro k
  induction k with
  | nil =>
    intro n n2 h hb
    cases n with
    | mk d c pa hs =>
      by_cases hemp : hs.isEmpty = true
      · simp only [borrarNodo, if_pos hemp] at hb
        exact Option.noConfusion hb
      · simp only [borrarNodo, if_neg hemp] at hb
        cases hb
        refine ⟨SinMuertos.mk _ _ _ _ h.vivos h.hijosSM, fun _ => Or.inr ?_⟩
        simp only [Nodo.hijos]
        intro hx
        rw [hx] at hemp
        simp at hemp
  | cons b rest ih =>
    intro n n2 h hb
    cases n with
    | mk d c pa hs =>
      cases hbs : buscarHijo b hs with
      | none =>
        simp only [borrarNodo, hbs] at hb
        cases hb
        exact ⟨SinMuertos.mk _ _ _ _ h.vivos h.hijosSM, fun hv => hv⟩
      | some child =>
        cases hbr : borrarNodo rest child with
        | none =>
          simp only [borrarNodo, hbs, hbr] at hb
          by_cases hg : (d.isNone && (quitarHijo b hs).isEmpty) = true
          · rw [if_pos hg] at hb
            exact Option.noConfusion hb
          · rw [if_neg hg] at hb
            cases hb
            refine ⟨SinMuertos.mk _ _ _ _ ?_ ?_, fun _ => ?_⟩
            · intro p hp
              exact h.vivos p (mem_quitarHijo hp)
            · intro p hp
              exact h.hijosSM p (mem_quitarHijo hp)
            · rw [Bool.and_eq_true] at hg
              simp only [Nodo.definicion, Nodo.hijos]
              by_cases hd : d.isNone = true
              · right
                intro hx
                exact hg ⟨hd, by rw [hx]; rfl⟩
              · left
                cases d with
                | none => simp at hd
                | some v => rfl
        | some child2 =>
          simp only [borrarNodo, hbs, hbr] at hb
          cases hb
          refine ⟨SinMuertos.mk _ _ _ _ ?_ ?_, fun _ => Or.inr ?_⟩
          · intro p hp
            cases mem_ponerHijo hp with
            | inl he =>
              rw [he]
              exact (ih child child2 (h.hijosSM _ (buscarHijo_mem hbs)) hbr).2
                (h.vivos _ (buscarHijo_mem hbs))
            | inr he => exact h.vivos p he
          · intro p hp
            cases mem_ponerHijo hp with
            | inl he =>
              rw [he]
              exact (ih child child2 (h.hijosSM _ (buscarHijo_mem hbs)) hbr).1
            | inr he => exact h.hijosSM p he
          · simp only [Nodo.hijos]
            exact ponerHijo_ne_nil b child2 hs

/-- Clause 7 of the header's representation invariant: at every node,
`cant_hijos` equals the number of keys defined strictly below it (its own
value, if any, not counted), i.e. the total of its child subtrees' values. -/
inductive CantOk {T : Type} : Nodo T → Prop where
  | mk : ∀ (d : Option T) (c : Nat) (pa : Option Clave) (hs : List (Nat × Nodo T)),
      c = (hs.map (fun p => p.2.numDefs)).sum →
      (∀ p ∈ hs, CantOk p.2) → CantOk (.mk d c pa hs)

theorem CantOk.cuenta {T : Type} {d : Option T} {c : Nat} {pa : Option Clave}
    {hs : List (Nat × Nodo T)} (h : CantOk (Nodo.mk d c pa hs)) :
    c = (hs.map (fun p => p.2.numDefs)).sum := by
  cases h
  assumption

theorem CantOk.hijosCant {T : Type} {d : Option T} {c : Nat} {pa : Option Clave}
    {hs : List (Nat × Nodo T)} (h : CantOk (Nodo.mk d c pa hs)) :
    ∀ p ∈ hs, CantOk p.2 := by
  cases h
  assumption

theorem CantOk_insertar {T : Type} (v : T) :
    ∀ (k pre : Clave) (n : Nodo T), Ordenado n → CantOk n →
      CantOk (insertarNodo pre k v n).1 := by
  intro k
  induction k with
  | nil =>
    intro pre n _ h
    cases n with
    | mk d c pa hs =>
      rw [insertarNodo]
      exact CantOk.mk _ _ _ _ h.cuenta h.hijosCant
  | cons b rest ih =>
    intro pre n hord h
    cases n with
    | mk d c pa hs =>
      cases hbs : buscarHijo b hs with
      | some child =>
        have hordc : Ordenado child := hord.hijosOrd _ (buscarHijo_mem hbs)
        have hsum := sum_ponerHijo_some Nodo.numDefs b
          (insertarNodo (pre ++ [b]) rest v child).1 child hs hord.pares hbs
        have hnum := numDefs_insertar v rest (pre ++ [b]) child hordc
        simp only [insertarNodo, hbs]
        refine CantOk.mk _ _ _ _ ?_ ?_
        · cases hni : (insertarNodo (pre ++ [b]) rest v child).2 with
          | true =>
            rw [hni] at hnum
            simp only [if_true] at hnum ⊢
            rw [h.cuenta] at *
            omega
          | false =>
            rw [hni] at hnum
            simp only [Bool.false_eq_true, if_false] at hnum ⊢
            rw [h.cuenta] at *
            omega
        · intro p hp
          cases mem_ponerHijo hp with
          | inl he =>
            rw [he]
            exact ih (pre ++ [b]) child hordc (h.hijosCant _ (buscarHijo_mem hbs))
          | inr he => exact h.hijosCant p he
      | none =>
        have hsum := sum_ponerHijo_none Nodo.numDefs b
          (insertarNodo (pre ++ [b]) rest v (Nodo.mk none 0 (some pre) [])).1 hs hbs
        have hfreshOrd : Ordenado (Nodo.mk (T := T) none 0 (some pre) []) :=
          Ordenado.mk _ _ _ _ (by simp) (by simp)
        have hnum := numDefs_insertar v rest (pre ++ [b]) _ hfreshOrd
        have hnuevo : (insertarNodo (pre ++ [b]) rest v (Nodo.mk none 0 (some pre) [])).2 = true := by
          rw [insertar_nuevo_iff]
          exact defEn_fresh rest 0 (some pre)
        rw [hnuevo] at hnum
        simp only [if_true, numDefs_mk] at hnum
        simp at hnum
        simp only [insertarNodo, hbs]
        refine CantOk.mk _ _ _ _ ?_ ?_
        · rw [h.cuenta] at *
          omega
        · intro p hp
          cases mem_ponerHijo hp with
          | inl he =>
            rw [he]
            exact ih (pre ++ [b]) _ hfreshOrd (CantOk.mk _ _ _ _ (by simp) (by simp))
          | inr he => exact h.hijosCant p he

theorem CantOk_borrar {T : Type} :
    ∀ (k : Clave) (n n2 : Nodo T), Ordenado n → CantOk n →
      (defEn k (some n)).isSome → borrarNodo k n = some n2 → CantOk n2 := by
  intro k
  induction k with
  | nil =>
    intro n n2 _ h _ hb
    cases n with
    | mk d c pa hs =>
      by_cases hemp : hs.isEmpty = true
      · simp only [borrarNodo, if_pos hemp] at hb
        exact Option.noConfusion hb
      · simp only [borrarNodo, if_neg hemp] at hb
        cases hb
        exact CantOk.mk _ _ _ _ h.cuenta h.hijosCant
  | cons b rest ih =>
    intro n n2 hord h hdef hb
    cases n with
    | mk d c pa hs =>
      rw [defEn_cons] at hdef
      simp only [Nodo.hijos] at hdef
      cases hbs : buscarHijo b hs with
      | none =>
        rw [hbs, defEn_none] at hdef
        simp at hdef
      | some child =>
        rw [hbs] at hdef
        have hordc : Ordenado child := hord.hijosOrd _ (buscarHijo_mem hbs)
        have hnum := numDefs_borrar rest child hordc hdef
        cases hbr : borrarNodo rest child with
        | none =>
          rw [hbr] at hnum
          simp only [numDefsOpc] at hnum
          have hsumq := sum_quitarHijo_some Nodo.numDefs b child hs hord.pares hbs
          simp only [borrarNodo, hbs, hbr] at hb
          by_cases hg : (d.isNone && (quitarHijo b hs).isEmpty) = true
          · rw [if_pos hg] at hb
            exact Option.noConfusion hb
          · rw [if_neg hg] at hb
            cases hb
            refine CantOk.mk _ _ _ _ ?_ ?_
            · rw [h.cuenta] at *
              omega
            · intro p hp
              exact h.hijosCant p (mem_quitarHijo hp)
        | some child2 =>
          rw [hbr] at hnum
          simp only [numDefsOpc] at hnum
          have hsump := sum_ponerHijo_some Nodo.numDefs b child2 child hs hord.pares hbs
          simp only [borrarNodo, hbs, hbr] at hb
          cases hb
          refine CantOk.mk _ _ _ _ ?_ ?_
          · rw [h.cuenta] at *
            omega
          · intro p hp
            cases mem_ponerHijo hp with
            | inl he =>
              rw [he]
              exact ih child child2 hordc (h.hijosCant _ (buscarHijo_mem hbs)) hdef hbr
            | inr he => exact h.hijosCant p he

/-- The parent back-reference invariant, relative to the node's own path `p`:
`padre` is null exactly at the root, and otherwise names the owning node
(the path with the last byte removed), recursively down the trie. -/
inductive PadresOk {T : Type} : Clave → Nodo T → Prop where
  | mk : ∀ (p : Clave) (d : Option T) (c : Nat) (pa : Option Clave)
      (hs : List (Nat × Nodo T)),
      pa = (if p = [] then none else some p.dropLast) →
      (∀ q ∈ hs, PadresOk (p ++ [q.1]) q.2) → PadresOk p (.mk d c pa hs)

theorem PadresOk.propio {T : Type} {p : Clave} {d : Option T} {c : Nat}
    {pa : Option Clave} {hs : List (Nat × Nodo T)} (h : PadresOk p (Nodo.mk d c pa hs)) :
    pa = (if p = [] then none else some p.dropLast) := by
  cases h
  assumption

theorem PadresOk.hijosPad {T : Type} {p : Clave} {d : Option T} {c : Nat}
    {pa : Option Clave} {hs : List (Nat × Nodo T)} (h : PadresOk p (Nodo.mk d c pa hs)) :
    ∀ q ∈ hs, PadresOk (p ++ [q.1]) q.2 := by
  cases h
  assumption

theorem PadresOk_insertar {T : Type} (v : T) :
    ∀ (k pre : Clave) (n : Nodo T), PadresOk pre n →
      PadresOk pre (insertarNodo pre k v n).1 := by
  intro k
  induction k with
  | nil =>
    intro pre n h
    cases n with
    | mk d c pa hs =>
      rw [insertarNodo]
      exact PadresOk.mk _ _ _ _ _ h.propio h.hijosPad
  | cons b rest ih =>
    intro pre n h
    cases n with
    | mk d c pa hs =>
      cases hbs : buscarHijo b hs with
      | some child =>
        simp only [insertarNodo, hbs]
        refine PadresOk.mk _ _ _ _ _ h.propio ?_
        intro q hq
        cases mem_ponerHijo hq with
        | inl he =>
          rw [he]
          exact ih (pre ++ [b]) child (h.hijosPad _ (buscarHijo_mem hbs))
        | inr he => exact h.hijosPad q he
      | none =>
        simp only [insertarNodo, hbs]
        refine PadresOk.mk _ _ _ _ _ h.propio ?_
        intro q hq
        cases mem_ponerHijo hq with
        | inl he =>
          rw [he]
          refine ih (pre ++ [b]) _ (PadresOk.mk _ _ _ _ _ ?_ (by simp))
          rw [if_neg (by simp), List.dropLast_concat]
        | inr he => exact h.hijosPad q he

theorem PadresOk_borrar {T : Type} :
    ∀ (k p : Clave) (n n2 : Nodo T), PadresOk p n → borrarNodo k n = some n2 →
      PadresOk p n2 := by
  intro k
  induction k with
  | nil =>
    intro p n n2 h hb
    cases n with
    | mk d c pa hs =>
      by_cases hemp : hs.isEmpty = true
      · simp only [borrarNodo, if_pos hemp] at hb
        exact Option.noConfusion hb
      · simp only [borrarNodo, if_neg hemp] at hb
        cases hb
        exact PadresOk.mk _ _ _ _ _ h.propio h.hijosPad
  | cons b rest ih =>
    intro p n n2 h hb
    cases n with
    | mk d c pa hs =>
      cases hbs : buscarHijo b hs with
      | none =>
        simp only [borrarNodo, hbs] at hb
        cases hb
        exact PadresOk.mk _ _ _ _ _ h.propio h.hijosPad
      | some child =>
        cases hbr : borrarNodo rest child with
        | none =>
          simp only [borrarNodo, hbs, hbr] at hb
          by_cases hg : (d.isNone && (quitarHijo b hs).isEmpty) = true
          · rw [if_pos hg] at hb
            exact Option.noConfusion hb
          · rw [if_neg hg] at hb
            cases hb
            refine PadresOk.mk _ _ _ _ _ h.propio ?_
            intro q hq
            exact h.hijosPad q (mem_quitarHijo hq)
        | some child2 =>
          simp only [borrarNodo, hbs, hbr] at hb
          cases hb
          refine PadresOk.mk _ _ _ _ _ h.propio ?_
          intro q hq
          cases mem_ponerHijo hq with
          | inl he =>
            rw [he]
            exact ih (p ++ [b]) child child2 (h.hijosPad _ (buscarHijo_mem hbs)) hbr
          | inr he => exact h.hijosPad q he

theorem count_uno_iff {T : Type} (m : string_map T) (k : Clave) :
    m.count k = 1 ↔ (defEn k (some m.raiz)).isSome = true := by
  rw [count_eq_defEn]
  cases h : (defEn k (some m.raiz)).isSome <;> simp [h]

/-- The representation invariant of a map state: sorted slots, no dead
branches, correct `cant_hijos` at every node, correct parent back-references,
and `cantElem` equal to the number of stored values (clause 2). -/
def buenEstado {T : Type} (m : string_map T) : Prop :=
  Ordenado m.raiz ∧ SinMuertos m.raiz ∧ CantOk m.raiz ∧ PadresOk [] m.raiz ∧
    m.cantElem = m.raiz.numDefs

theorem buenEstado_vacio {T : Type} : buenEstado (string_map.vacio T) := by
  refine ⟨Ordenado.mk _ _ _ _ (by simp) (by simp),
    SinMuertos.mk _ _ _ _ (by simp) (by simp),
    CantOk.mk _ _ _ _ (by simp) (by simp),
    PadresOk.mk _ _ _ _ _ (by simp) (by simp), ?_⟩
  show 0 = (Nodo.mk (T := T) none 0 none []).numDefs
  rw [numDefs_mk]
  simp

theorem buenEstado_insert {T : Type} (m : string_map T) (kv : Clave × T)
    (h : buenEstado m) : buenEstado (m.insert kv).1 := by
  obtain ⟨h1, h2, h3, h4, h5⟩ := h
  refine ⟨Ordenado_insertar kv.2 kv.1 [] m.raiz h1,
    SinMuertos_insertar kv.2 kv.1 [] m.raiz h2,
    CantOk_insertar kv.2 kv.1 [] m.raiz h1 h3,
    PadresOk_insertar kv.2 kv.1 [] m.raiz h4, ?_⟩
  show (if (insertarNodo [] kv.1 kv.2 m.raiz).2 then m.cantElem + 1 else m.cantElem)
    = (insertarNodo [] kv.1 kv.2 m.raiz).1.numDefs
  rw [numDefs_insertar kv.2 kv.1 [] m.raiz h1]
  cases hni : (insertarNodo [] kv.1 kv.2 m.raiz).2 <;> simp [h5]

theorem buenEstado_erase {T : Type} (m : string_map T) (k : Clave)
    (h : buenEstado m) : buenEstado (m.erase k).1 := by
  obtain ⟨h1, h2, h3, h4, h5⟩ := h
  unfold string_map.erase
  by_cases hc : m.count k = 1
  · have hdef : (defEn k (some m.raiz)).isSome = true := (count_uno_iff m k).mp hc
    have hnum := numDefs_borrar k m.raiz h1 hdef
    rw [if_pos hc]
    cases hbr : borrarNodo k m.raiz with
    | none =>
      rw [hbr] at hnum
      simp only [numDefsOpc] at hnum
      refine ⟨Ordenado.mk _ _ _ _ (by simp) (by simp),
        SinMuertos.mk _ _ _ _ (by simp) (by simp),
        CantOk.mk _ _ _ _ (by simp) (by simp),
        PadresOk.mk _ _ _ _ _ (by simp) (by simp), ?_⟩
      show m.cantElem - 1 = (Nodo.mk (T := T) none 0 none []).numDefs
      rw [numDefs_mk]
      simp
      omega
    | some r =>
      rw [hbr] at hnum
      simp only [numDefsOpc] at hnum
      refine ⟨Ordenado_borrar k m.raiz r h1 hbr,
        (SinMuertos_borrar k m.raiz r h2 hbr).1,
        CantOk_borrar k m.raiz r h1 h3 hdef hbr,
        PadresOk_borrar k [] m.raiz r h4 hbr, ?_⟩
      show m.cantElem - 1 = r.numDefs
      omega
  · rw [if_neg hc]
    exact ⟨h1, h2, h3, h4, h5⟩

theorem buenEstado_opIdx {T : Type} [Inhabited T] (m : string_map T) (k : Clave)
    (h : buenEstado m) : buenEstado (m.opIdx k).1 := by
  unfold string_map.opIdx
  cases ha : m.atKey k with
  | some v => exact h
  | none => exact buenEstado_insert m (k, default) h

theorem buenEstado_aplicarOp {T : Type} [Inhabited T] (m : string_map T) (o : Op T)
    (h : buenEstado m) : buenEstado (aplicarOp m o) := by
  cases o with
  | ins k v => exact buenEstado_insert m (k, v) h
  | del k => exact buenEstado_erase m k h
  | idx k => exact buenEstado_opIdx m k h

theorem buenEstado_foldl {T : Type} [Inhabited T] :
    ∀ (ops : List (Op T)) (m : string_map T), buenEstado m →
      buenEstado (ops.foldl aplicarOp m) := by
  intro ops
  induction ops with
  | nil => exact fun m h => h
  | cons o rest ih =>
    intro m h
    exact ih (aplicarOp m o) (buenEstado_aplicarOp m o h)

theorem buenEstado_aplicarOps {T : Type} [Inhabited T] (ops : List (Op T)) :
    buenEstado (aplicarOps ops) :=
  buenEstado_foldl ops (string_map.vacio T) buenEstado_vacio

/-- C3: on a well-formed map, erasing a defined key returns 1, after which
`find` is `end()`, `count` is 0 and the size went down by one; erasing an
absent key returns 0 and leaves the map unchanged. -/
theorem borrar_comportamiento {T : Type} (m : string_map T) (k : Clave)
    (h : buenEstado m) :
    (m.count k = 1 →
      (m.erase k).2 = 1 ∧ (m.erase k).1.find k = none ∧
        (m.erase k).1.count k = 0 ∧ (m.erase k).1.size + 1 = m.size) ∧
    (m.count k = 0 → m.erase k = (m, 0)) := by
  constructor
  · intro hc
    have hdef : (defEn k (some m.raiz)).isSome = true := (count_uno_iff m k).mp hc
    have hnum := numDefs_borrar k m.raiz h.1 hdef
    have hborr : defEn k (borrarNodo k m.raiz) = none := defEn_borrar_mismo k m.raiz
    have helem : m.cantElem = m.raiz.numDefs := h.2.2.2.2
    unfold string_map.erase
    rw [if_pos hc]
    cases hbr : borrarNodo k m.raiz with
    | none =>
      rw [hbr] at hnum
      simp only [numDefsOpc] at hnum
      refine ⟨rfl, ?_, ?_, ?_⟩
      · rw [find_eq_defEn]
        show (defEn k (some (Nodo.mk none 0 none []))).map _ = none
        rw [defEn_fresh]
        rfl
      · rw [count_eq_defEn]
        show (if (defEn k (some (Nodo.mk (T := T) none 0 none []))).isSome = true then 1 else 0) = 0
        rw [defEn_fresh]
        rfl
      · show m.cantElem - 1 + 1 = m.cantElem
        omega
    | some r =>
      rw [hbr] at hnum
      simp only [numDefsOpc] at hnum
      rw [hbr] at hborr
      refine ⟨rfl, ?_, ?_, ?_⟩
      · rw [find_eq_defEn]
        show (defEn k (some r)).map _ = none
        rw [hborr]
        rfl
      · rw [count_eq_defEn]
        show (if (defEn k (some r)).isSome = true then 1 else 0) = 0
        rw [hborr]
        rfl
      · show m.cantElem - 1 + 1 = m.cantElem
        omega
  · intro hc
    have hne : ¬ m.count k = 1 := by omega
    unfold string_map.erase
    rw [if_neg hne]

/-- Witness for the two guarded halves of the erase behaviour, at the map
holding only the key `[1]`. -/
theorem borrar_comportamiento_testigo :
    ((aplicarOps [Op.ins [1] 5]).erase [1]).2 = 1 ∧
      ((aplicarOps [Op.ins [1] 5]).erase [2]) = (aplicarOps [Op.ins [1] 5], 0) := by
  have h1 := (borrar_comportamiento (aplicarOps [Op.ins [1] 5]) [1]
    (buenEstado_aplicarOps [Op.ins [1] 5])).1 (by decide)
  have h2 := (borrar_comportamiento (aplicarOps [Op.ins [1] 5]) [2]
    (buenEstado_aplicarOps [Op.ins [1] 5])).2 (by decide)
  exact ⟨h1.1, h2⟩

/-- C4: after every sequence of facade operations starting from the empty
map (in particular after every erase), the trie has no dead branches: every
reachable non-root node holds a value or has at least one non-null child. -/
theorem sin_ramas_muertas {T : Type} [Inhabited T] (ops : List (Op T)) :
    SinMuertos (aplicarOps ops).raiz :=
  (buenEstado_aplicarOps ops).2.1

/-- The reading of `cant_hijos` that claim C5 asserts: at every node it
equals the number of non-null slots of the children array. -/
inductive RanurasOk {T : Type} : Nodo T → Prop where
  | mk : ∀ (d : Option T) (c : Nat) (pa : Option Clave) (hs : List (Nat × Nodo T)),
      c = hs.length →
      (∀ p ∈ hs, RanurasOk p.2) → RanurasOk (.mk d c pa hs)

/-- Counterexample to C5 as stated: after inserting the keys `[1, 2]` and
`[1, 2, 3]`, the root has one non-null slot but `cant_hijos = 2` (it counts
the two keys defined below it, per clause 7 of the header's invariant). -/
theorem ranuras_contraejemplo :
    ¬ RanurasOk (aplicarOps [Op.ins [1, 2] (0 : Nat), Op.ins [1, 2, 3] 0]).raiz := by
  intro h
  cases h with
  | mk _ _ _ _ hlen hrec => exact absurd hlen (by decide)

/-- C5 amended: at every node of every reachable trie, `cant_hijos` equals
the number of keys defined strictly below the node (the node's own value not
counted), exactly clause 7 of the header's representation invariant. -/
theorem cant_hijos_subarbol {T : Type} [Inhabited T] (ops : List (Op T)) :
    CantOk (aplicarOps ops).raiz :=
  (buenEstado_aplicarOps ops).2.2.1

/-- C8: in every reachable trie the parent back-reference is null only at the
root, and at every non-root node it names exactly the owning node. -/
theorem padres_correctos {T : Type} [Inhabited T] (ops : List (Op T)) :
    PadresOk [] (aplicarOps ops).raiz :=
  (buenEstado_aplicarOps ops).2.2.2.1

/-- C6: the mutable accessor never fails — on an absent key it stores and
returns a default-constructed value and touches no other entry, and on a
present key it returns the stored value leaving the map unchanged; the
read-only accessor fails with the key-not-found result `none` on an absent
key and, being a pure function of the map, performs no mutation. -/
theorem acceso_comportamiento {T : Type} [Inhabited T] (m : string_map T) (k : Clave) :
    (m.count k = 0 →
      m.atKey k = none ∧
      (m.opIdx k).2 = default ∧
      (m.opIdx k).1.atKey k = some default ∧
      (∀ k2, k2 ≠ k → (m.opIdx k).1.find k2 = m.find k2)) ∧
    (∀ v, m.atKey k = some v → m.opIdx k = (m, v)) := by
  constructor
  · intro hc
    have hdef : defEn k (some m.raiz) = none := by
      rw [count_eq_defEn] at hc
      cases hd : defEn k (some m.raiz) with
      | none => rfl
      | some v => rw [hd] at hc; simp at hc
    have ha : m.atKey k = none := by rw [atKey_eq_defEn, hdef]
    refine ⟨ha, ?_, ?_, ?_⟩
    · unfold string_map.opIdx
      rw [ha]
    · unfold string_map.opIdx
      rw [ha]
      rw [atKey_eq_defEn]
      show defEn k (some (insertarNodo [] k default m.raiz).1) = some default
      exact defEn_insertar_mismo k [] default m.raiz
    · intro k2 hk2
      unfold string_map.opIdx
      rw [ha]
      rw [find_eq_defEn, find_eq_defEn]
      show (defEn k2 (some (insertarNodo [] k default m.raiz).1)).map _
        = (defEn k2 (some m.raiz)).map _
      rw [defEn_insertar_otro k2 k [] default m.raiz hk2]
  · intro v hv
    unfold string_map.opIdx
    rw [hv]

/-- Witness for the guarded accessor behaviour: the empty map at key `[2]`
(absent) and the one-entry map at key `[1]` (present). -/
theorem acceso_comportamiento_testigo :
    (string_map.vacio Nat).atKey [2] = none ∧
      ((string_map.vacio Nat).opIdx [2]).2 = 0 ∧
      (aplicarOps [Op.ins [1] 7]).opIdx [1] = (aplicarOps [Op.ins [1] 7], 7) := by
  have h1 := (acceso_comportamiento (string_map.vacio Nat) [2]).1 (by decide)
  have h2 := (acceso_comportamiento (aplicarOps [Op.ins [1] 7]) [1]).2 7 (by decide)
  exact ⟨h1.1, h1.2.1, h2⟩

theorem claveLt_prefijo : ∀ (pre : Clave) (b : Nat) (suf : Clave),
    claveLt pre (pre ++ b :: suf) := by
  intro pre
  induction pre with
  | nil => exact fun b suf => List.Lex.nil
  | cons a rest ih => exact fun b suf => List.Lex.cons (ih b suf)

theorem claveLt_rama : ∀ (pre : Clave) {b1 b2 : Nat} (s1 s2 : Clave), b1 < b2 →
    claveLt (pre ++ b1 :: s1) (pre ++ b2 :: s2) := by
  intro pre
  induction pre with
  | nil => exact fun s1 s2 h => List.Lex.rel h
  | cons a rest ih => exact fun s1 s2 h => List.Lex.cons (ih s1 s2 h)

theorem buscarHijo_de_mem {T : Type} {b : Nat} {c : Nodo T} :
    ∀ {hs : List (Nat × Nodo T)}, (hs.map Prod.fst).Pairwise (· < ·) →
      (b, c) ∈ hs → buscarHijo b hs = some c := by
  intro hs
  induction hs with
  | nil => intro _ hm; exact absurd hm (List.not_mem_nil _)
  | cons q rest ih =>
    obtain ⟨b2, c2⟩ := q
    intro hp hm
    rw [List.map_cons, List.pairwise_cons] at hp
    cases hm with
    | head => simp [buscarHijo]
    | tail _ hm2 =>
      have hlt : b2 < b := hp.1 b (List.mem_map_of_mem Prod.fst hm2)
      rw [buscarHijo, if_neg (by omega)]
      exact ih hp.2 hm2

theorem lista_prefijo {T : Type} :
    ∀ (n : Nodo T) (pre : Clave) (kv : Clave × T),
      kv ∈ n.lista pre → ∃ suf, kv.1 = pre ++ suf := by
  intro n
  induction n using Nodo.induccion with
  | _ d c pa hs ih =>
    intro pre kv hm
    rw [lista_mk] at hm
    rw [List.mem_append] at hm
    cases hm with
    | inl hown =>
      cases d with
      | none => exact absurd hown (List.not_mem_nil _)
      | some v =>
        rw [List.mem_singleton] at hown
        exact ⟨[], by rw [hown, List.append_nil]⟩
    | inr hflat =>
      rw [List.mem_flatten] at hflat
      obtain ⟨l, hl, hmem⟩ := hflat
      rw [List.mem_map] at hl
      obtain ⟨p, hp, hlp⟩ := hl
      obtain ⟨suf, hsuf⟩ := ih p hp (pre ++ [p.1]) kv (hlp ▸ hmem)
      exact ⟨p.1 :: suf, by rw [hsuf]; simp⟩

theorem lista_ordenada {T : Type} :
    ∀ (n : Nodo T), Ordenado n → ∀ (pre : Clave),
      ((n.lista pre).map Prod.fst).Pairwise claveLt := by
  intro n
  induction n using Nodo.induccion with
  | _ d c pa hs ih =>
    intro hord pre
    rw [lista_mk, List.map_append, List.pairwise_append]
    refine ⟨?_, ?_, ?_⟩
    · cases d <;> simp
    · rw [List.map_flatten, List.pairwise_flatten]
      constructor
      · intro l hl
        rw [List.mem_map] at hl
        obtain ⟨l2, hl2, hll⟩ := hl
        rw [List.mem_map] at hl2
        obtain ⟨p, hp, hlp⟩ := hl2
        rw [← hll, ← hlp]
        exact ih p hp (hord.hijosOrd p hp) (pre ++ [p.1])
      · rw [List.pairwise_map, List.pairwise_map]
        have hpares : hs.Pairwise (fun p q => p.1 < q.1) :=
          List.pairwise_map.mp hord.pares
        refine hpares.imp ?_
        intro p q hpq x hx y hy
        rw [List.mem_map] at hx hy
        obtain ⟨kx, hkx, hkx2⟩ := hx
        obtain ⟨ky, hky, hky2⟩ := hy
        obtain ⟨sx, hsx⟩ := lista_prefijo p.2 (pre ++ [p.1]) kx hkx
        obtain ⟨sy, hsy⟩ := lista_prefijo q.2 (pre ++ [q.1]) ky hky
        rw [← hkx2, ← hky2, hsx, hsy, ← List.append_cons, ← List.append_cons]
        exact claveLt_rama pre sx sy hpq
    · intro x hx y hy
      cases d with
      | none => exact absurd hx (List.not_mem_nil _)
      | some v =>
        rw [List.map_singleton, List.mem_singleton] at hx
        rw [List.map_flatten, List.mem_flatten] at hy
        obtain ⟨l, hl, hyl⟩ := hy
        rw [List.mem_map] at hl
        obtain ⟨l2, hl2, hll⟩ := hl
        rw [List.mem_map] at hl2
        obtain ⟨p, hp, hlp⟩ := hl2
        rw [← hll, ← hlp, List.mem_map] at hyl
        obtain ⟨ky, hky, hky2⟩ := hyl
        obtain ⟨sy, hsy⟩ := lista_prefijo p.2 (pre ++ [p.1]) ky hky
        rw [hx, ← hky2, hsy, ← List.append_cons]
        exact claveLt_prefijo pre p.1 sy

theorem lista_mem_iff {T : Type} :
    ∀ (n : Nodo T), Ordenado n → ∀ (pre k : Clave) (v : T),
      ((pre ++ k, v) ∈ n.lista pre ↔ defEn k (some n) = some v) := by
  intro n
  induction n using Nodo.induccion with
  | _ d c pa hs ih =>
    intro hord pre k v
    constructor
    · intro hm
      rw [lista_mk, List.mem_append] at hm
      cases hm with
      | inl hown =>
        cases d with
        | none => exact absurd hown (List.not_mem_nil _)
        | some w =>
          rw [List.mem_singleton, Prod.mk.injEq] at hown
          have hk : k = [] := by
            have h0 : pre ++ k = pre ++ [] := by rw [List.append_nil]; exact hown.1
            exact List.append_cancel_left h0
          rw [hk, defEn_nil]
          simp only [Nodo.definicion]
          rw [hown.2]
      | inr hflat =>
        rw [List.mem_flatten] at hflat
        obtain ⟨l, hl, hmem⟩ := hflat
        rw [List.mem_map] at hl
        obtain ⟨p, hp, hlp⟩ := hl
        rw [← hlp] at hmem
        obtain ⟨suf, hsuf⟩ := lista_prefijo p.2 (pre ++ [p.1]) (pre ++ k, v) hmem
        have hk : k = p.1 :: suf := by
          rw [← List.append_cons] at hsuf
          exact List.append_cancel_left hsuf
        have hmem2 : ((pre ++ [p.1]) ++ suf, v) ∈ p.2.lista (pre ++ [p.1]) := by
          have heq : pre ++ k = (pre ++ [p.1]) ++ suf := by rw [hk]; simp
          rw [heq] at hmem
          exact hmem
        have hdef := (ih p hp (hord.hijosOrd p hp) (pre ++ [p.1]) suf v).mp hmem2
        rw [hk, defEn_cons]
        simp only [Nodo.hijos]
        obtain ⟨b, cc⟩ := p
        rw [buscarHijo_de_mem hord.pares hp]
        exact hdef
    · intro hdef
      rw [lista_mk, List.mem_append]
      cases k with
      | nil =>
        left
        rw [defEn_nil] at hdef
        simp only [Nodo.definicion] at hdef
        rw [hdef]
        rw [List.append_nil]
        exact List.mem_singleton.mpr rfl
      | cons b rest =>
        right
        rw [defEn_cons] at hdef
        simp only [Nodo.hijos] at hdef
        cases hbs : buscarHijo b hs with
        | none => rw [hbs, defEn_none] at hdef; exact Option.noConfusion hdef
        | some cc =>
          rw [hbs] at hdef
          have hmemc : (b, cc) ∈ hs := buscarHijo_mem hbs
          have hmem2 := (ih (b, cc) hmemc (hord.hijosOrd _ hmemc) (pre ++ [b]) rest v).mpr hdef
          rw [List.mem_flatten]
          refine ⟨cc.lista (pre ++ [b]), ?_, ?_⟩
          · rw [List.mem_map]
            exact ⟨(b, cc), hmemc, rfl⟩
          · have heq : pre ++ b :: rest = (pre ++ [b]) ++ rest := by simp
            rw [heq]
            exact hmem2

/-- C2: on a well-formed map the iteration order (the node's own pair first,
then the child subtrees by ascending byte) lists the keys in strictly
increasing byte-lexicographic order, and a key is listed iff it is defined
(`count` is 1) — no duplicates, no omissions. -/
theorem iteracion_ordenada {T : Type} (m : string_map T) (h : buenEstado m) :
    m.claves.Pairwise claveLt ∧ ∀ k, k ∈ m.claves ↔ m.count k = 1 := by
  constructor
  · exact lista_ordenada m.raiz h.1 []
  · intro k
    show k ∈ (m.raiz.lista []).map Prod.fst ↔ _
    rw [List.mem_map]
    constructor
    · rintro ⟨kv, hkv, hk⟩
      have hkv2 : ([] ++ k, kv.2) ∈ m.raiz.lista [] := by
        rw [List.nil_append, ← hk]
        exact hkv
      have hdef := (lista_mem_iff m.raiz h.1 [] k kv.2).mp hkv2
      rw [count_eq_defEn, hdef]
      rfl
    · intro hc
      have hdef : (defEn k (some m.raiz)).isSome = true := (count_uno_iff m k).mp hc
      cases hd : defEn k (some m.raiz) with
      | none => rw [hd] at hdef; simp at hdef
      | some v =>
        have hm := (lista_mem_iff m.raiz h.1 [] k v).mpr hd
        rw [List.nil_append] at hm
        exact ⟨(k, v), hm, rfl⟩

/-- Witness for the iteration-order claim at the two-key map holding `[1]`
and `[0]`. -/
theorem iteracion_ordenada_testigo :
    (aplicarOps [Op.ins [1] (5 : Nat), Op.ins [0] 2]).claves.Pairwise claveLt ∧
      ([0] ∈ (aplicarOps [Op.ins [1] (5 : Nat), Op.ins [0] 2]).claves ↔
        (aplicarOps [Op.ins [1] (5 : Nat), Op.ins [0] 2]).count [0] = 1) := by
  have h := iteracion_ordenada (aplicarOps [Op.ins [1] (5 : Nat), Op.ins [0] 2])
    (buenEstado_aplicarOps [Op.ins [1] 5, Op.ins [0] 2])
  exact ⟨h.1, h.2 [0]⟩

theorem claveLt_asimetrica : ∀ (x y : Clave), claveLt x y → claveLt y x → False := by
  intro a
  induction a with
  | nil =>
    intro b h1 h2
    cases h2
  | cons x xs ih =>
    intro b h1 h2
    cases h1 with
    | rel hr =>
      cases h2 with
      | rel hr2 => omega
      | cons h2b => omega
    | cons h1b =>
      cases h2 with
      | rel hr2 => omega
      | cons h2b => exact ih _ h1b h2b

theorem sorted_unico {T : Type} :
    ∀ (l1 l2 : List (Clave × T)), (l1.map Prod.fst).Pairwise claveLt →
      (l2.map Prod.fst).Pairwise claveLt → (∀ kv, kv ∈ l1 ↔ kv ∈ l2) → l1 = l2 := by
  intro l1
  induction l1 with
  | nil =>
    intro l2 _ _ hm
    cases l2 with
    | nil => rfl
    | cons y t2 => exact absurd ((hm y).mpr (List.mem_cons_self _ _)) (List.not_mem_nil _)
  | cons x t1 ih =>
    intro l2 h1 h2 hm
    cases l2 with
    | nil => exact absurd ((hm x).mp (List.mem_cons_self _ _)) (List.not_mem_nil _)
    | cons y t2 =>
      rw [List.map_cons, List.pairwise_cons] at h1 h2
      have hxy : x = y := by
        have hx2 : x ∈ y :: t2 := (hm x).mp (List.mem_cons_self _ _)
        have hy1 : y ∈ x :: t1 := (hm y).mpr (List.mem_cons_self _ _)
        cases List.mem_cons.mp hx2 with
        | inl h => exact h
        | inr hxt2 =>
          cases List.mem_cons.mp hy1 with
          | inl h => exact h.symm
          | inr hyt1 =>
            have ha := h1.1 y.1 (List.mem_map_of_mem Prod.fst hyt1)
            have hb := h2.1 x.1 (List.mem_map_of_mem Prod.fst hxt2)
            exact absurd hb (fun hx => claveLt_asimetrica _ _ ha hx)
      subst hxy
      have hm2 : ∀ kv, kv ∈ t1 ↔ kv ∈ t2 := by
        intro kv
        constructor
        · intro hk
          have hin := (hm kv).mp (List.mem_cons_of_mem _ hk)
          cases List.mem_cons.mp hin with
          | inl he =>
            have hlt := h1.1 kv.1 (List.mem_map_of_mem Prod.fst hk)
            rw [he] at hlt
            exact absurd hlt (fun hh => claveLt_asimetrica _ _ hh hh)
          | inr ht => exact ht
        · intro hk
          have hin := (hm kv).mpr (List.mem_cons_of_mem _ hk)
          cases List.mem_cons.mp hin with
          | inl he =>
            have hlt := h2.1 kv.1 (List.mem_map_of_mem Prod.fst hk)
            rw [he] at hlt
            exact absurd hlt (fun hh => claveLt_asimetrica _ _ hh hh)
          | inr ht => exact ht
      rw [ih t2 h1.2 h2.2 hm2]

theorem atKey_mem_toList {T : Type} (m : string_map T) (h : buenEstado m)
    (k : Clave) (v : T) : m.atKey k = some v ↔ (k, v) ∈ m.toList := by
  rw [atKey_eq_defEn]
  have hiff := lista_mem_iff m.raiz h.1 [] k v
  rw [List.nil_append] at hiff
  exact hiff.symm

theorem atKey_insert {T : Type} (m : string_map T) (kv : Clave × T) (k2 : Clave) :
    (m.insert kv).1.atKey k2 = if k2 = kv.1 then some kv.2 else m.atKey k2 := by
  rw [atKey_eq_defEn, atKey_eq_defEn]
  show defEn k2 (some (insertarNodo [] kv.1 kv.2 m.raiz).1) = _
  by_cases h : k2 = kv.1
  · rw [if_pos h, h]
    exact defEn_insertar_mismo kv.1 [] kv.2 m.raiz
  · rw [if_neg h]
    exact defEn_insertar_otro k2 kv.1 [] kv.2 m.raiz h

/-- Building a map by inserting a list of pairs left to right. -/
def construir {T : Type} (l : List (Clave × T)) (m : string_map T) : string_map T :=
  l.foldl (fun acc kv => (acc.insert kv).1) m

theorem buenEstado_construir {T : Type} :
    ∀ (l : List (Clave × T)) (m : string_map T), buenEstado m →
      buenEstado (construir l m) := by
  intro l
  induction l with
  | nil => exact fun m h => h
  | cons x t ih =>
    intro m h
    simp only [construir, List.foldl_cons]
    exact ih _ (buenEstado_insert m x h)

theorem atKey_construir_congr {T : Type} :
    ∀ (l : List (Clave × T)) (m1 m2 : string_map T),
      (∀ k, m1.atKey k = m2.atKey k) →
      ∀ k, (construir l m1).atKey k = (construir l m2).atKey k := by
  intro l
  induction l with
  | nil => exact fun m1 m2 h k => h k
  | cons x t ih =>
    intro m1 m2 h k
    simp only [construir, List.foldl_cons]
    refine ih _ _ ?_ k
    intro k2
    rw [atKey_insert, atKey_insert]
    by_cases hk : k2 = x.1
    · rw [if_pos hk, if_pos hk]
    · rw [if_neg hk, if_neg hk]
      exact h k2

theorem atKey_construir_perm {T : Type} :
    ∀ {l1 l2 : List (Clave × T)}, l1.Perm l2 → (l1.map Prod.fst).Nodup →
      ∀ (m : string_map T) (k : Clave),
        (construir l1 m).atKey k = (construir l2 m).atKey k := by
  intro l1 l2 hp
  induction hp with
  | nil => exact fun _ m k => rfl
  | cons x hp ih =>
    intro hnd m k
    rw [List.map_cons, List.nodup_cons] at hnd
    simp only [construir, List.foldl_cons]
    exact ih hnd.2 ((m.insert x).1) k
  | swap x y l =>
    intro hnd m k
    rw [List.map_cons, List.map_cons, List.nodup_cons] at hnd
    have hne : y.1 ≠ x.1 := by
      intro he
      exact hnd.1 (he ▸ List.mem_cons_self _ _)
    simp only [construir, List.foldl_cons]
    refine atKey_construir_congr l _ _ ?_ k
    intro k2
    rw [atKey_insert, atKey_insert, atKey_insert, atKey_insert]
    by_cases hx : k2 = x.1
    · rw [if_pos hx, if_neg (hx ▸ fun he => hne he.symm), if_pos hx]
    · rw [if_neg hx]
      by_cases hy : k2 = y.1
      · rw [if_pos hy, if_pos hy]
      · rw [if_neg hy, if_neg hy, if_neg hx]
  | trans hp1 hp2 ih1 ih2 =>
    intro hnd m k
    rw [ih1 hnd m k]
    exact ih2 ((hp1.map Prod.fst).nodup hnd) m k

/-- C7: two well-formed maps compare equal exactly when they agree on every
key's value; consequently the same set of pairs (distinct keys) inserted in
any two orders builds equal maps, and maps that disagree on some key compare
unequal. -/
theorem igualdad_mapas {T : Type} [DecidableEq T] :
    (∀ (m1 m2 : string_map T), buenEstado m1 → buenEstado m2 →
      (m1.opEq m2 = true ↔ ∀ k, m1.atKey k = m2.atKey k)) ∧
    (∀ (l1 l2 : List (Clave × T)), l1.Perm l2 → (l1.map Prod.fst).Nodup →
      (construir l1 (string_map.vacio T)).opEq (construir l2 (string_map.vacio T)) = true) ∧
    (∀ (m1 m2 : string_map T), buenEstado m1 → buenEstado m2 →
      ∀ k, m1.atKey k ≠ m2.atKey k → m1.opEq m2 = false) := by
  have hiff : ∀ (m1 m2 : string_map T), buenEstado m1 → buenEstado m2 →
      (m1.opEq m2 = true ↔ ∀ k, m1.atKey k = m2.atKey k) := by
    intro m1 m2 h1 h2
    constructor
    · intro heq k
      have hlists : m1.toList = m2.toList := of_decide_eq_true heq
      cases ha : m1.atKey k with
      | some v =>
        have hm := (atKey_mem_toList m1 h1 k v).mp ha
        rw [hlists] at hm
        exact ((atKey_mem_toList m2 h2 k v).mpr hm).symm
      | none =>
        cases hb : m2.atKey k with
        | none => rfl
        | some v =>
          have hm := (atKey_mem_toList m2 h2 k v).mp hb
          rw [← hlists] at hm
          have := (atKey_mem_toList m1 h1 k v).mpr hm
          rw [ha] at this
          exact Option.noConfusion this
    · intro hpt
      have hlists : m1.toList = m2.toList := by
        refine sorted_unico m1.toList m2.toList (lista_ordenada m1.raiz h1.1 [])
          (lista_ordenada m2.raiz h2.1 []) ?_
        intro kv
        rw [← atKey_mem_toList m1 h1 kv.1 kv.2, ← atKey_mem_toList m2 h2 kv.1 kv.2,
          hpt kv.1]
      exact decide_eq_true hlists
  refine ⟨hiff, ?_, ?_⟩
  · intro l1 l2 hp hnd
    have hb1 := buenEstado_construir l1 (string_map.vacio T) buenEstado_vacio
    have hb2 := buenEstado_construir l2 (string_map.vacio T) buenEstado_vacio
    exact (hiff _ _ hb1 hb2).mpr (atKey_construir_perm hp hnd (string_map.vacio T))
  · intro m1 m2 h1 h2 k hk
    cases he : m1.opEq m2 with
    | false => rfl
    | true => exact absurd ((hiff m1 m2 h1 h2).mp he k) hk

/-- Witness for the equality claim: inserting the pairs `([1], 5)` and
`([2], 6)` in both orders builds maps comparing equal, and the map with
`([1], 4)` instead compares unequal to the first. -/
theorem igualdad_mapas_testigo :
    (construir [([1], (5 : Nat)), ([2], 6)] (string_map.vacio Nat)).opEq
      (construir [([2], 6), ([1], (5 : Nat))] (string_map.vacio Nat)) = true ∧
    (construir [([1], (5 : Nat)), ([2], 6)] (string_map.vacio Nat)).opEq
      (construir [([1], (4 : Nat)), ([2], 6)] (string_map.vacio Nat)) = false := by
  constructor
  · exact igualdad_mapas.2.1 [([1], 5), ([2], 6)] [([2], 6), ([1], 5)]
      (by decide) (by decide)
  · exact igualdad_mapas.2.2 _ _
      (buenEstado_construir [([1], 5), ([2], 6)] _ buenEstado_vacio)
      (buenEstado_construir [([1], 4), ([2], 6)] _ buenEstado_vacio)
      [1] (by decide)

/-- A stored record, identified opaquely (the index stores `const Registro*`
pointers; only identity matters here). -/
abbrev Registro := Nat

/-- A field value: the `Dato` variant holds either a string or a natural. -/
inductive Dato : Type where
  | str (s : Clave)
  | nat (n : Nat)

/-- The string reading of a `Dato` (`valorStr` in the source; meaningful on
string data). -/
def Dato.valorStr : Dato → Clave
  | .str s => s
  | .nat _ => []

/-- The numeric reading of a `Dato` (`valorNat` in the source; meaningful on
numeric data). -/
def Dato.valorNat : Dato → Nat
  | .str _ => 0
  | .nat n => n

/-- Lookup of `std::map::operator[]`-style access in the numeric index:
returns the mapped set, default-inserting an empty one when absent. -/
def mapNatIdx (m : List (Nat × List Registro)) (k : Nat) :
    List (Nat × List Registro) × List Registro :=
  match m.find? (fun p => p.1 == k) with
  | some p => (m, p.2)
  | none => (m ++ [(k, [])], [])

/-- The `Indice` state from `Indice.h`/`Indice.cpp`: the indexed field, the
flag selecting the string or numeric index, and the two underlying maps from
field value to the set of records holding it. -/
structure Indice : Type where
  _campo : Clave
  _esString : Bool
  _indicesStr : string_map (List Registro)
  _indicesNat : List (Nat × List Registro)

/-- The body of `Indice::dameRegistros` (src/src/Indice.cpp): returns
`_indicesStr[d.valorStr()]` or `_indicesNat[d.valorNat()]` — a subscript
read through the mutable accessor — together with the updated index state
that access leaves behind. -/
def Indice.dameRegistros (ind : Indice) (d : Dato) : List Registro × Indice :=
  if ind._esString then
    let r := ind._indicesStr.opIdx d.valorStr
    (r.2, { ind with _indicesStr := r.1 })
  else
    let r := mapNatIdx ind._indicesNat d.valorNat
    (r.2, { ind with _indicesNat := r.1 })

theorem find?_append_none {α : Type} (p : α → Bool) :
    ∀ (l : List α) (x : α), l.find? p = none → (l ++ [x]).find? p
      = if p x then some x else none := by
  intro l x
  induction l with
  | nil =>
    intro _
    rw [List.nil_append, List.find?]
    cases hp : p x <;> simp [hp]
  | cons a t ih =>
    intro h
    rw [List.find?] at h
    cases hp : p a
    · rw [hp] at h
      rw [List.cons_append, List.find?, hp]
      exact ih h
    · rw [hp] at h
      exact Option.noConfusion h

/-- C10: querying `dameRegistros` on a value with no associated records does
not fail — it returns the empty set — and, the read going through the
subscript accessor, it defines the value in the underlying index map with an
empty set: the pure read mutates the index, which is no longer undefined at
that value afterwards. -/
theorem dameRegistros_sin_registros (ind : Indice) (d : Dato)
    (h : if ind._esString = true
      then ind._indicesStr.count d.valorStr = 0
      else ind._indicesNat.find? (fun p => p.1 == d.valorNat) = none) :
    (ind.dameRegistros d).1 = [] ∧
      (if ind._esString = true
        then (ind.dameRegistros d).2._indicesStr.atKey d.valorStr = some []
        else (ind.dameRegistros d).2._indicesNat.find? (fun p => p.1 == d.valorNat)
          = some (d.valorNat, [])) := by
  obtain ⟨ca, es, istr, inat⟩ := ind
  cases es with
  | true =>
    rw [if_pos rfl] at h ⊢
    have hdef : defEn d.valorStr (some istr.raiz) = none := by
      rw [count_eq_defEn] at h
      cases hd : defEn d.valorStr (some istr.raiz) with
      | none => rfl
      | some v =>
        rw [hd] at h
        simp at h
    have ha : istr.atKey d.valorStr = none := by
      rw [atKey_eq_defEn, hdef]
    have hred : (Indice.mk ca true istr inat).dameRegistros d
        = (default, Indice.mk ca true (istr.insert (d.valorStr, default)).1 inat) := by
      unfold Indice.dameRegistros
      rw [if_pos rfl]
      unfold string_map.opIdx
      rw [ha]
    rw [hred]
    refine ⟨rfl, ?_⟩
    show (istr.insert (d.valorStr, default)).1.atKey d.valorStr = some []
    rw [atKey_eq_defEn]
    show defEn d.valorStr (some (insertarNodo [] d.valorStr default istr.raiz).1) = some []
    rw [defEn_insertar_mismo]
    rfl
  | false =>
    rw [if_neg (fun hx => Bool.noConfusion hx)] at h ⊢
    have hred : (Indice.mk ca false istr inat).dameRegistros d
        = ([], Indice.mk ca false istr (inat ++ [(d.valorNat, [])])) := by
      unfold Indice.dameRegistros
      rw [if_neg (fun hx => Bool.noConfusion hx)]
      unfold mapNatIdx
      rw [h]
    rw [hred]
    refine ⟨rfl, ?_⟩
    show (inat ++ [(d.valorNat, [])]).find? _ = _
    rw [find?_append_none _ _ _ h]
    simp

/-- Witness for the empty-at-value query: a fresh string index queried at the
string value `[1]`, and a fresh numeric index queried at 3. -/
theorem dameRegistros_sin_registros_testigo :
    ((Indice.mk [] true (string_map.vacio (List Registro)) []).dameRegistros
      (Dato.str [1])).1 = [] ∧
    ((Indice.mk [] false (string_map.vacio (List Registro)) []).dameRegistros
      (Dato.nat 3)).1 = [] := by
  have h1 := dameRegistros_sin_registros
    (Indice.mk [] true (string_map.vacio (List Registro)) []) (Dato.str [1]) (by decide)
  have h2 := dameRegistros_sin_registros
    (Indice.mk [] false (string_map.vacio (List Registro)) []) (Dato.nat 3) (by decide)
  exact ⟨h1.1, h2.1⟩

/-- Steps a walk spends scanning a children list for slot `b` (the sparse
rendering of indexing the 256-slot array: at most the list's length, itself
at most 256). -/
def costBuscar {T : Type} (b : Nat) : List (Nat × Nodo T) → Nat
  | [] => 1
  | (b2, _) :: rest => if b = b2 then 1 else 1 + costBuscar b rest

/-- Steps spent writing slot `b` of a children list. -/
def costPoner {T : Type} (b : Nat) : List (Nat × Nodo T) → Nat
  | [] => 1
  | (b2, _) :: rest => if b < b2 then 1 else if b = b2 then 1 else 1 + costPoner b rest

/-- Cost of the lookup walk `encontrarPalabra`: one step per node visited
plus the slot scan at each level. -/
def costEncontrar {T : Type} : Clave → Option (Nodo T) → Nat
  | _, none => 1
  | [], some _ => 1
  | b :: k, some n => 1 + costBuscar b n.hijos + costEncontrar k (buscarHijo b n.hijos)

/-- Cost of the insertion walk `insertarNodo`: per level, the slot scan, the
slot write and one step, descending into the existing child or a fresh one. -/
def costInsertar {T : Type} : Clave → Nodo T → Nat
  | [], _ => 1
  | b :: k, n =>
    1 + costBuscar b n.hijos + costPoner b n.hijos +
      (match buscarHijo b n.hijos with
       | some child => costInsertar k child
       | none => costInsertar k (Nodo.mk (T := T) none 0 none []))

/-- Cost of the deletion walk `borrarNodo`: per level, the slot scan, the
recursive deletion, and the slot update (a clear when the child was pruned,
a write otherwise). -/
def costBorrar {T : Type} : Clave → Nodo T → Nat
  | [], _ => 1
  | b :: k, n =>
    1 + costBuscar b n.hijos +
      (match buscarHijo b n.hijos with
       | none => 0
       | some child =>
         costBorrar k child +
           (match borrarNodo k child with
            | none => n.hijos.length + 1
            | some _ => costPoner b n.hijos))

/-- The key of the smallest-key value in a subtree below path `pre`: stop at
the first node holding a value, else descend into the smallest slot (the
spec's `minimum`, `Nodo::minimo` in the header). -/
def minimoClave {T : Type} : Nodo T → Clave → Clave
  | .mk (some _) _ _ _, pre => pre
  | .mk none _ _ [], pre => pre
  | .mk none _ _ ((b, c) :: _), pre => minimoClave c (pre ++ [b])
decreasing_by exact sizeOf_hijo_lt _ _ _ _ (b, c) (List.mem_cons_self _ _)

/-- Cost of the `minimum` descent: one step per level. -/
def costMinimo {T : Type} : Nodo T → Nat
  | .mk (some _) _ _ _ => 1
  | .mk none _ _ [] => 1
  | .mk none _ _ ((b, c) :: _) => 1 + costMinimo c
decreasing_by exact sizeOf_hijo_lt _ _ _ _ (b, c) (List.mem_cons_self _ _)

/-- The smallest slot strictly greater than `b` (the spec's
next-sibling-greater-than, `Nodo::hermanoMayor` in the header). -/
def hermanoMayor {T : Type} (b : Nat) : List (Nat × Nodo T) → Option (Nat × Nodo T)
  | [] => none
  | (b2, c) :: rest => if b < b2 then some (b2, c) else hermanoMayor b rest

/-- The successor walk (the spec's `successor`, driving `operator++`): from
the node of key `pre ++ k`, the next key in order — the minimum below its
smallest child if it has children, else the minimum below the nearest greater
sibling of the deepest possible ancestor. -/
def sucesorClave {T : Type} : Clave → Nodo T → Clave → Option Clave
  | [], n, pre =>
    match n.hijos with
    | [] => none
    | (b, c) :: _ => some (minimoClave c (pre ++ [b]))
  | b :: k, n, pre =>
    match buscarHijo b n.hijos with
    | none => none
    | some c =>
      match sucesorClave k c (pre ++ [b]) with
      | some r => some r
      | none =>
        match hermanoMayor b n.hijos with
        | none => none
        | some (b2, c2) => some (minimoClave c2 (pre ++ [b2]))

/-- Cost of the successor walk: the climb costs one slot scan per level of
the key, and exactly one `minimum` descent runs at the level that resolves. -/
def costSucesor {T : Type} : Clave → Nodo T → Clave → Nat
  | [], n, _ =>
    match n.hijos with
    | [] => 1
    | (_, c) :: _ => 1 + costMinimo c
  | b :: k, n, pre =>
    match buscarHijo b n.hijos with
    | none => 1
    | some c =>
      1 + costBuscar b n.hijos + costSucesor k c (pre ++ [b]) +
        (match sucesorClave k c (pre ++ [b]) with
         | some _ => 0
         | none =>
           match hermanoMayor b n.hijos with
           | none => 1
           | some (_, c2) => n.hijos.length + 1 + costMinimo c2)

/-- Invariant: every slot byte is a real byte (below 256), recursively. -/
inductive BytesOk {T : Type} : Nodo T → Prop where
  | mk : ∀ (d : Option T) (c : Nat) (pa : Option Clave) (hs : List (Nat × Nodo T)),
      (∀ p ∈ hs, p.1 < 256) → (∀ p ∈ hs, BytesOk p.2) → BytesOk (.mk d c pa hs)

theorem BytesOk.bytes {T : Type} {d : Option T} {c : Nat} {pa : Option Clave}
    {hs : List (Nat × Nodo T)} (h : BytesOk (Nodo.mk d c pa hs)) :
    ∀ p ∈ hs, p.1 < 256 := by
  cases h
  assumption

theorem BytesOk.hijosBytes {T : Type} {d : Option T} {c : Nat} {pa : Option Clave}
    {hs : List (Nat × Nodo T)} (h : BytesOk (Nodo.mk d c pa hs)) :
    ∀ p ∈ hs, BytesOk p.2 := by
  cases h
  assumption

theorem longitud_le_256 (l : List Nat) (hp : l.Pairwise (· < ·))
    (hb : ∀ x ∈ l, x < 256) : l.length ≤ 256 := by
  have hnd : l.Nodup := hp.imp (fun h => Nat.ne_of_lt h)
  have hcard : l.toFinset.card = l.length := List.toFinset_card_of_nodup hnd
  have hsub : l.toFinset ⊆ Finset.range 256 := by
    intro x hx
    rw [List.mem_toFinset] at hx
    rw [Finset.mem_range]
    exact hb x hx
  have := Finset.card_le_card hsub
  rw [hcard, Finset.card_range] at this
  exact this

theorem ramas_le_256 {T : Type} {d : Option T} {c : Nat} {pa : Option Clave}
    {hs : List (Nat × Nodo T)} (hord : Ordenado (Nodo.mk d c pa hs))
    (hby : BytesOk (Nodo.mk d c pa hs)) : hs.length ≤ 256 := by
  have := longitud_le_256 (hs.map Prod.fst) hord.pares (by
    intro x hx
    rw [List.mem_map] at hx
    obtain ⟨p, hp, hpx⟩ := hx
    exact hpx ▸ hby.bytes p hp)
  rw [List.length_map] at this
  exact this

theorem costBuscar_le {T : Type} (b : Nat) :
    ∀ (hs : List (Nat × Nodo T)), costBuscar b hs ≤ hs.length + 1 := by
  intro hs
  induction hs with
  | nil => simp [costBuscar]
  | cons q rest ih =>
    obtain ⟨b2, c⟩ := q
    rw [costBuscar]
    by_cases h : b = b2
    · rw [if_pos h]
      simp
    · rw [if_neg h, List.length_cons]
      omega

theorem costPoner_le {T : Type} (b : Nat) :
    ∀ (hs : List (Nat × Nodo T)), costPoner b hs ≤ hs.length + 1 := by
  intro hs
  induction hs with
  | nil => simp [costPoner]
  | cons q rest ih =>
    obtain ⟨b2, c⟩ := q
    rw [costPoner]
    by_cases h1 : b < b2
    · rw [if_pos h1]
      simp
    · rw [if_neg h1]
      by_cases h2 : b = b2
      · rw [if_pos h2]
        simp
      · rw [if_neg h2, List.length_cons]
        omega

theorem costEncontrar_none {T : Type} : ∀ (k : Clave),
    costEncontrar k (none : Option (Nodo T)) = 1 := by
  intro k
  cases k <;> rfl

theorem costEncontrar_le {T : Type} :
    ∀ (k : Clave) (n : Nodo T), Ordenado n → BytesOk n →
      costEncontrar k (some n) ≤ 258 * (k.length + 1) := by
  intro k
  induction k with
  | nil =>
    intro n _ _
    have h1 : costEncontrar [] (some n) = 1 := rfl
    rw [h1]
    omega
  | cons b k ih =>
    intro n hord hby
    cases n with
    | mk d c pa hs =>
      have h1 : costEncontrar (b :: k) (some (Nodo.mk d c pa hs))
          = 1 + costBuscar b hs + costEncontrar k (buscarHijo b hs) := rfl
      rw [h1]
      have hlen := ramas_le_256 hord hby
      have h2 : costBuscar b hs ≤ 257 := by
        have := costBuscar_le b hs
        omega
      have h3 : costEncontrar k (buscarHijo b hs) ≤ 258 * (k.length + 1) := by
        cases hbs : buscarHijo b hs with
        | none =>
          rw [costEncontrar_none]
          omega
        | some child =>
          exact ih child (hord.hijosOrd _ (buscarHijo_mem hbs))
            (hby.hijosBytes _ (buscarHijo_mem hbs))
      rw [List.length_cons]
      omega

theorem costInsertar_le {T : Type} :
    ∀ (k : Clave) (n : Nodo T), Ordenado n → BytesOk n →
      costInsertar k n ≤ 516 * (k.length + 1) := by
  intro k
  induction k with
  | nil =>
    intro n _ _
    rw [costInsertar]
    omega
  | cons b k ih =>
    intro n hord hby
    cases n with
    | mk d c pa hs =>
      have hlen := ramas_le_256 hord hby
      have h2 : costBuscar b hs ≤ 257 := by
        have := costBuscar_le b hs
        omega
      have h4 : costPoner b hs ≤ 257 := by
        have := costPoner_le b hs
        omega
      have h1 : costInsertar (b :: k) (Nodo.mk d c pa hs)
          = 1 + costBuscar b hs + costPoner b hs +
            (match buscarHijo b hs with
             | some child => costInsertar k child
             | none => costInsertar k (Nodo.mk (T := T) none 0 none [])) := rfl
      rw [h1]
      have h3 : (match buscarHijo b hs with
          | some child => costInsertar k child
          | none => costInsertar k (Nodo.mk (T := T) none 0 none []))
          ≤ 516 * (k.length + 1) := by
        cases hbs : buscarHijo b hs with
        | none =>
          exact ih _ (Ordenado.mk _ _ _ _ (by simp) (by simp))
            (BytesOk.mk _ _ _ _ (by simp) (by simp))
        | some child =>
          exact ih child (hord.hijosOrd _ (buscarHijo_mem hbs))
            (hby.hijosBytes _ (buscarHijo_mem hbs))
      rw [List.length_cons]
      omega

theorem costBorrar_le {T : Type} :
    ∀ (k : Clave) (n : Nodo T), Ordenado n → BytesOk n →
      costBorrar k n ≤ 516 * (k.length + 1) := by
  intro k
  induction k with
  | nil =>
    intro n _ _
    rw [costBorrar]
    omega
  | cons b k ih =>
    intro n hord hby
    cases n with
    | mk d c pa hs =>
      have hlen := ramas_le_256 hord hby
      have h2 : costBuscar b hs ≤ 257 := by
        have := costBuscar_le b hs
        omega
      cases hbs : buscarHijo b hs with
      | none =>
        simp only [costBorrar, Nodo.hijos, hbs, List.length_cons]
        omega
      | some child =>
        have hrec := ih child (hord.hijosOrd _ (buscarHijo_mem hbs))
          (hby.hijosBytes _ (buscarHijo_mem hbs))
        have hpon := costPoner_le b hs
        cases hbr : borrarNodo k child with
        | none =>
          simp only [costBorrar, Nodo.hijos, hbs, hbr, List.length_cons]
          show 1 + costBuscar b hs + (costBorrar k child + (hs.length + 1))
            ≤ 516 * (k.length + 1 + 1)
          omega
        | some r =>
          simp only [costBorrar, Nodo.hijos, hbs, hbr, List.length_cons]
          show 1 + costBuscar b hs + (costBorrar k child + costPoner b hs)
            ≤ 516 * (k.length + 1 + 1)
          omega

theorem costMinimo_le {T : Type} :
    ∀ (n : Nodo T) (pre : Clave),
      costMinimo n + pre.length ≤ (minimoClave n pre).length + 1 := by
  intro n
  induction n using Nodo.induccion with
  | _ d c pa hs ih =>
    intro pre
    cases d with
    | some v =>
      rw [costMinimo, minimoClave]
      omega
    | none =>
      cases hs with
      | nil =>
        rw [costMinimo, minimoClave]
        omega
      | cons q rest =>
        obtain ⟨b, cc⟩ := q
        rw [costMinimo, minimoClave]
        have := ih (b, cc) (List.mem_cons_self _ _) (pre ++ [b])
        rw [List.length_append] at this
        simp only [List.length_cons, List.length_nil] at this
        omega

theorem costSucesor_le {T : Type} :
    ∀ (k : Clave) (n : Nodo T) (pre : Clave), Ordenado n → BytesOk n →
      costSucesor k n pre ≤ 517 * (k.length + 1) +
        (match sucesorClave k n pre with
         | some r => r.length
         | none => 0) := by
  intro k
  induction k with
  | nil =>
    intro n pre hord hby
    cases n with
    | mk d c pa hs =>
      cases hs with
      | nil =>
        simp only [costSucesor, sucesorClave, Nodo.hijos]
        omega
      | cons q rest =>
        obtain ⟨b, cc⟩ := q
        simp only [costSucesor, sucesorClave, Nodo.hijos]
        have hmin := costMinimo_le cc (pre ++ [b])
        rw [List.length_append] at hmin
        simp only [List.length_cons, List.length_nil] at hmin
        omega
  | cons b k ih =>
    intro n pre hord hby
    cases n with
    | mk d c pa hs =>
      cases hbs : buscarHijo b hs with
      | none =>
        simp only [costSucesor, sucesorClave, Nodo.hijos, hbs, List.length_cons]
        omega
      | some cc =>
        have hmem := buscarHijo_mem hbs
        have hlen := ramas_le_256 hord hby
        have hbc : costBuscar b hs ≤ 257 := by
          have := costBuscar_le b hs
          omega
        have ihcc := ih cc (pre ++ [b]) (hord.hijosOrd _ hmem) (hby.hijosBytes _ hmem)
        cases hsc : sucesorClave k cc (pre ++ [b]) with
        | some r =>
          rw [hsc] at ihcc
          have ihcc2 : costSucesor k cc (pre ++ [b]) ≤ 517 * (k.length + 1) + r.length :=
            ihcc
          simp only [costSucesor, sucesorClave, Nodo.hijos, hbs, hsc, List.length_cons]
          show 1 + costBuscar b hs + costSucesor k cc (pre ++ [b]) + 0
            ≤ 517 * (k.length + 1 + 1) + r.length
          omega
        | none =>
          rw [hsc] at ihcc
          have ihcc2 : costSucesor k cc (pre ++ [b]) ≤ 517 * (k.length + 1) + 0 := ihcc
          cases hhm : hermanoMayor b hs with
          | none =>
            simp only [costSucesor, sucesorClave, Nodo.hijos, hbs, hsc, hhm,
              List.length_cons]
            show 1 + costBuscar b hs + costSucesor k cc (pre ++ [b]) + 1
              ≤ 517 * (k.length + 1 + 1) + 0
            omega
          | some q2 =>
            obtain ⟨b2, c2⟩ := q2
            have hmin := costMinimo_le c2 (pre ++ [b2])
            rw [List.length_append] at hmin
            simp only [List.length_cons, List.length_nil] at hmin
            simp only [costSucesor, sucesorClave, Nodo.hijos, hbs, hsc, hhm,
              List.length_cons]
            show 1 + costBuscar b hs + costSucesor k cc (pre ++ [b]) +
                (hs.length + 1 + costMinimo c2)
              ≤ 517 * (k.length + 1 + 1) + (minimoClave c2 (pre ++ [b2])).length
            omega

/-- C9: on any trie satisfying the representation invariant (sorted real-byte
slots), the walks of lookup, insertion, deletion and successor each cost at
most a fixed constant times the length of the key involved (for the
successor, the current key plus the produced key): the bounds mention the key
lengths only, never the number of entries stored. -/
theorem operaciones_lineales {T : Type} (m : string_map T)
    (hord : Ordenado m.raiz) (hby : BytesOk m.raiz) :
    (∀ k : Clave, costEncontrar k (some m.raiz) ≤ 258 * (k.length + 1)) ∧
    (∀ k : Clave, costInsertar k m.raiz ≤ 516 * (k.length + 1)) ∧
    (∀ k : Clave, costBorrar k m.raiz ≤ 516 * (k.length + 1)) ∧
    (∀ k pre : Clave, costSucesor k m.raiz pre ≤ 517 * (k.length + 1) +
      (match sucesorClave k m.raiz pre with
       | some r => r.length
       | none => 0)) :=
  ⟨fun k => costEncontrar_le k m.raiz hord hby,
   fun k => costInsertar_le k m.raiz hord hby,
   fun k => costBorrar_le k m.raiz hord hby,
   fun k pre => costSucesor_le k m.raiz pre hord hby⟩

/-- Witness for the cost bounds at the map holding the single key `[1, 2]`,
evaluated for the key `[1, 2]`. -/
theorem operaciones_lineales_testigo :
    costEncontrar [1, 2] (some (aplicarOps [Op.ins [1, 2] (5 : Nat)]).raiz) ≤ 258 * 3 ∧
      costBorrar [1, 2] (aplicarOps [Op.ins [1, 2] (5 : Nat)]).raiz ≤ 516 * 3 := by
  have hord : Ordenado (aplicarOps [Op.ins [1, 2] (5 : Nat)]).raiz :=
    (buenEstado_aplicarOps [Op.ins [1, 2] 5]).1
  have hby : BytesOk (aplicarOps [Op.ins [1, 2] (5 : Nat)]).raiz := by
    refine BytesOk.mk _ _ _ _ ?_ ?_ <;> intro p hp <;> fin_cases hp
    · exact by decide
    · refine BytesOk.mk _ _ _ _ ?_ ?_ <;> intro q hq <;> fin_cases hq
      · exact by decide
      · exact BytesOk.mk _ _ _ _ (by simp) (by simp)
  have h := operaciones_lineales (aplicarOps [Op.ins [1, 2] (5 : Nat)]) hord hby
  exact ⟨h.1 [1, 2], h.2.2.1 [1, 2]⟩
